import Mathlib

/-!
Verification of the copy engine of the `fmn` file-management tool
(src/fmn/main.go, src/fmn/copy.go, src/fmn/helpers.go).

The filesystem is shallowly embedded as a finite tree of named entries.
Paths are lists of components (Go path strings, split on the separator;
`"."`, the current directory, is the empty list and is the root of the
modelled tree).  `os.Stat` can fail in the model only with not-found;
permission errors and output streams (`console.Out`) are not modelled.
The interactive prompt's input stream (`console.In`) is modelled as the
list of lines still unread.  Inode numbers model file identity for
`os.SameFile`; the kernel's inode allocator is a counter in the state.
-/

set_option autoImplicit false

/-- Command configuration (struct `command`, main.go). -/
structure Command where
  copy : Bool
  recursive : Bool
  force : Bool
  interactive : Bool
  verbose : Bool
  dryRun : Bool
deriving Repr, DecidableEq

/-- A path, split into components.  `[]` is the current directory `"."`. -/
abbrev FPath := List String

/-- A filesystem node: a regular file (byte content, permission bits,
modification time, access time, inode) or a directory with named children.
Directory metadata other than the inode is never read by the copy engine
and is not tracked. -/
inductive FNode where
  | file (content : String) (mode : Nat) (modTime : Nat) (accessTime : Nat) (ino : Nat)
  | dir (ino : Nat) (children : List (String × FNode))
deriving Repr

/-- Filesystem state: the tree rooted at the current directory plus the
inode allocator. -/
structure Fs where
  root : FNode
  nextIno : Nat
deriving Repr

/-- What `os.Stat` reports (`os.FileInfo`): directory bit, permission
bits, modification time, and the identity used by `os.SameFile`.
Directory mode/modTime are not tracked by the model (never read). -/
structure FileInfo where
  isDir : Bool
  mode : Nat
  modTime : Nat
  ino : Nat
deriving Repr, DecidableEq

/-- The errors the copy engine can produce, one constructor per
`fmt.Errorf`/`errors.New` site; `joined` is `errors.Join`. -/
inductive Err where
  | noSource                                -- run: "copiles requires at least one source path"
  | selfCopyArgs                            -- run: "cannot copy a path to itself"
  | cannotStatDest (dest : FPath)            -- copyFile: "cannot stat destination ..."
  | targetNotDir (dest : FPath)              -- copyFile: "target ... is not a directory"
  | cannotStatSource (src : FPath)           -- copySource: "cannot stat source ..."
  | omittingDirectory (src : FPath)          -- copyDirectory: "omitting directory ..."
  | cannotOverwriteNonDir (dest src : FPath) -- copyDirectory: "cannot overwrite non-directory ..."
  | walkFailed (src : FPath)                 -- WalkDir root error
  | alreadyExists (target : FPath)           -- shouldOverwrite conflict
  | selfCopy (src : FPath)                   -- copySingleFile: "cannot copy ... to itself"
  | openFailed (src : FPath)                 -- copySrcToDest: os.Open error
  | createFailed (dst : FPath)               -- copySrcToDest: os.Create error
  | copyFailed (src : FPath)                 -- copySrcToDest: io.Copy error
  | mkdirFailed (p : FPath)                  -- createDir: os.MkdirAll error
  | statFailed (p : FPath)                   -- isSameFile: os.Stat error on the first path
  | joined (errs : List Err)                -- errors.Join
deriving Repr

/-- Render a path the way the Go code interpolates it into messages. -/
def pathToString (p : FPath) : String :=
  if p.isEmpty then "." else String.intercalate "/" p

/-- The user-facing message of each error (the `fmt.Errorf` format strings). -/
def errMessage : Err → String
  | .noSource => "copiles requires at least one source path"
  | .selfCopyArgs => "cannot copy a path to itself"
  | .cannotStatDest d => "cannot stat destination '" ++ pathToString d ++ "'"
  | .targetNotDir d => "target '" ++ pathToString d ++ "' is not a directory"
  | .cannotStatSource s => "cannot stat source '" ++ pathToString s ++ "'"
  | .omittingDirectory s =>
      "omitting directory '" ++ pathToString s ++ "' (use -r for recursive)"
  | .cannotOverwriteNonDir d s =>
      "cannot overwrite non-directory '" ++ pathToString d ++ "' with directory '" ++
        pathToString s ++ "'"
  | .walkFailed s => "walk failed for '" ++ pathToString s ++ "'"
  | .alreadyExists t =>
      "'" ++ pathToString t ++ "' already exists (use -f to force or -i for interactive)"
  | .selfCopy s => "cannot copy '" ++ pathToString s ++ "' to itself"
  | .openFailed s => "open failed for '" ++ pathToString s ++ "'"
  | .createFailed d => "create failed for '" ++ pathToString d ++ "'"
  | .copyFailed s => "copy failed for '" ++ pathToString s ++ "'"
  | .mkdirFailed p => "mkdir failed for '" ++ pathToString p ++ "'"
  | .statFailed p => "stat failed for '" ++ pathToString p ++ "'"
  | .joined _ => "multiple errors"

/-- First child with the given name (directory entry lookup). -/
def lookupChild : List (String × FNode) → String → Option FNode
  | [], _ => none
  | (nm, c) :: rest, name => if nm = name then some c else lookupChild rest name

/-- Replace the child with the given name (no-op when absent). -/
def setChild : List (String × FNode) → String → FNode → List (String × FNode)
  | [], _, _ => []
  | (nm, c) :: rest, name, v =>
      if nm = name then (name, v) :: rest else (nm, c) :: setChild rest name v

/-- Resolve a path to the node it names, `none` when a component is
missing or an intermediate component is a regular file (ENOENT/ENOTDIR). -/
def FNode.find : FNode → FPath → Option FNode
  | n, [] => some n
  | .file .., _ :: _ => none
  | .dir _ children, nm :: rest =>
      match lookupChild children nm with
      | some c => FNode.find c rest
      | none => none

/-- Replace the node at a path.  The parent chain must already exist as
directories; a new leaf entry may be created, deeper missing chains fail. -/
def FNode.setPath : FNode → FPath → FNode → Option FNode
  | _, [], v => some v
  | .file .., _ :: _, _ => none
  | .dir ino children, nm :: rest, v =>
      match lookupChild children nm with
      | some c =>
          match FNode.setPath c rest v with
          | some c2 => some (.dir ino (setChild children nm c2))
          | none => none
      | none =>
          if rest.isEmpty then some (.dir ino (children ++ [(nm, v)])) else none

/-- The `os.FileInfo` view of a node. -/
def FNode.toFileInfo : FNode → FileInfo
  | .file _ m t _ i => ⟨false, m, t, i⟩
  | .dir i _ => ⟨true, 0, 0, i⟩

/-- `os.Stat`: `none` models the not-found error (the only stat failure
in the model). -/
def stat (fs : Fs) (p : FPath) : Option FileInfo :=
  (fs.root.find p).map FNode.toFileInfo

/-- `isSameFile` (main.go): stat both paths; an error on the first path is
returned, not-found on the second yields `false` without error, otherwise
compare identity (`os.SameFile`, inode equality in the model). -/
def isSameFile (fs : Fs) (a b : FPath) : Except Err Bool :=
  match stat fs a with
  | none => .error (.statFailed a)
  | some ia =>
      match stat fs b with
      | none => .ok false
      | some ib => .ok (ia.ino == ib.ino)

/-- `prompt` (copy.go): read one input line (empty when the stream is
exhausted, as `bufio.Scanner` yields), trim surrounding whitespace,
lower-case, and accept exactly "y" or "yes".  Returns the answer and the
rest of the input stream. -/
def prompt (input : List String) : Bool × List String :=
  let response := ((input.head?).getD "").trim.toLower
  (response == "y" || response == "yes", input.tail)

/-- `shouldOverwrite` (copy.go): the overwrite decision.  Returns
(proceed, error, remaining input). -/
def shouldOverwrite (targetPath : FPath) (targetInfo : Option FileInfo)
    (cmd : Command) (input : List String) : Bool × Option Err × List String :=
  match targetInfo with
  | none => (true, none, input)
  | some info =>
      if info.isDir then (true, none, input)
      else if cmd.force then (true, none, input)
      else if cmd.interactive then
        let (yes, input2) := prompt input
        if yes then (true, none, input2) else (false, none, input2)
      else (false, some (.alreadyExists targetPath), input)

/-- `os.Create`: truncate an existing regular file (keeping its inode) or
create a fresh empty one (0666 before umask); fails when the path names a
directory or its parent chain is missing.  Returns the new state and the
inode of the opened file.  Truncation timestamps are not modelled (no
clock; they are overwritten by the Chtimes that follows in every claim's
scenario). -/
def createEmpty (fs : Fs) (dst : FPath) : Except Err (Fs × Nat) :=
  match fs.root.find dst with
  | some (.dir ..) => .error (.createFailed dst)
  | some (.file _ m t a i) =>
      match fs.root.setPath dst (.file "" m t a i) with
      | some r => .ok ({ fs with root := r }, i)
      | none => .error (.createFailed dst)
  | none =>
      match fs.root.setPath dst (.file "" 0o666 0 0 fs.nextIno) with
      | some r => .ok ({ root := r, nextIno := fs.nextIno + 1 }, fs.nextIno)
      | none => .error (.createFailed dst)

/-- The tail of `copySrcToDest` after `os.Create` succeeded: `io.Copy`
reads the source bytes (from the state AFTER the truncation — copying a
file onto itself reads the already-truncated content, as the Go sequence
does), then `Chmod` sets the captured source mode and `Chtimes` sets
both timestamps to the captured source modification time.  Reading a
directory fails the `io.Copy` and leaves the destination truncated. -/
def finishCopy (src dst : FPath) (srcInfo : FileInfo) (ino : Nat)
    (fs1 : Fs) : Option Err × Fs :=
  match fs1.root.find src with
  | some (.file content _ _ _ _) =>
      match fs1.root.setPath dst
          (.file content srcInfo.mode srcInfo.modTime srcInfo.modTime ino) with
      | some r => (none, { fs1 with root := r })
      | none => (some (.createFailed dst), fs1)
  | _ => (some (.copyFailed src), fs1)

/-- `copySrcToDest` (copy.go/helpers.go): dry-run prints only; otherwise
open the source, create/truncate the destination, then stream the bytes
and reapply the captured metadata (`finishCopy`). -/
def copySrcToDest (src dst : FPath) (srcInfo : FileInfo) (cmd : Command)
    (fs : Fs) : Option Err × Fs :=
  if cmd.dryRun then (none, fs)
  else if (fs.root.find src).isNone then (some (.openFailed src), fs)
  else
    match createEmpty fs dst with
    | .error e => (some e, fs)
    | .ok (fs1, ino) => finishCopy src dst srcInfo ino fs1

/-- Fresh directory chain for the missing tail of an `os.MkdirAll`,
allocating inodes from the counter. -/
def freshChain (p : FPath) (next : Nat) : FNode × Nat :=
  match p with
  | [] => (.dir next [], next + 1)
  | nm :: rest =>
      let (sub, next2) := freshChain rest next
      (.dir next2 [(nm, sub)], next2 + 1)

/-- `os.MkdirAll` on the tree: create every missing directory on the
path; fail when an existing component is a regular file. -/
def mkdirAllAux (root : FNode) (p : FPath) (next : Nat) (whole : FPath) :
    Except Err (FNode × Nat) :=
  match p, root with
  | [], .dir i ch => .ok (.dir i ch, next)
  | _, .file .. => .error (.mkdirFailed whole)
  | nm :: rest, .dir ino children =>
      match lookupChild children nm with
      | some c =>
          match mkdirAllAux c rest next whole with
          | .ok (c2, next2) => .ok (.dir ino (setChild children nm c2), next2)
          | .error e => .error e
      | none =>
          let (sub, next2) := freshChain rest next
          .ok (.dir ino (children ++ [(nm, sub)]), next2)

/-- `os.MkdirAll` at the state level. -/
def mkdirAll (fs : Fs) (p : FPath) : Except Err Fs :=
  match mkdirAllAux fs.root p fs.nextIno p with
  | .ok (r, n) => .ok ⟨r, n⟩
  | .error e => .error e

/-- `createDir` (copy.go/helpers.go): dry-run prints only, otherwise
`os.MkdirAll`. -/
def createDir (p : FPath) (cmd : Command) (fs : Fs) : Except Err Fs :=
  if cmd.dryRun then .ok fs else mkdirAll fs p

/-- Result of the recursive walk: outcome, filesystem, remaining input,
and a ghost trace recording each invocation of the Transfer
(`copySrcToDest`) for a file entry — its target path and the filesystem
state at the moment of invocation.  The trace does not influence the
computation; it only lets invariants about those moments be stated. -/
structure WalkOut where
  err : Option Err
  fs : Fs
  input : List String
  trace : List (FPath × Fs)
deriving Repr

mutual
/-- One visited entry of `filepath.WalkDir` inside `copyDirectory`
(copy.go): `erel` is the entry's path relative to the source root
(nonempty; the root itself is skipped by the callback).  Mirrors the
callback body: stat the target, consult `shouldOverwrite`, then skip
(`filepath.SkipDir` on directories prunes the subtree), create the
directory and descend, or transfer the file using the snapshot metadata
(`d.Info()`).  `WalkDir` reads each directory when it reaches it; the
embedding reads the source subtree's children from the snapshot node,
which coincides with the live filesystem whenever the walk does not write
inside the source subtree. -/
def walkNode (cmd : Command) (src dest erel : FPath) (node : FNode)
    (fs : Fs) (input : List String) : WalkOut :=
  match shouldOverwrite (dest ++ erel) (stat fs (dest ++ erel)) cmd input with
  | (_, some e, input2) => ⟨some e, fs, input2, []⟩
  | (should, none, input2) =>
      if !should then ⟨none, fs, input2, []⟩
      else
        match node with
        | .dir _ children =>
            match createDir (dest ++ erel) cmd fs with
            | .error e => ⟨some e, fs, input2, []⟩
            | .ok fs1 => walkSiblings cmd src dest erel children fs1 input2
        | .file c m t a i =>
            match copySrcToDest (src ++ erel) (dest ++ erel)
                (FNode.toFileInfo (.file c m t a i)) cmd fs with
            | (r, fs1) => ⟨r, fs1, input2, [(dest ++ erel, fs)]⟩

/-- The directory-entry loop of the walk: visit each child in order,
aborting on the first error (which aborts the whole tree walk). -/
def walkSiblings (cmd : Command) (src dest rel : FPath)
    (children : List (String × FNode)) (fs : Fs) (input : List String) : WalkOut :=
  match children with
  | [] => ⟨none, fs, input, []⟩
  | (nm, c) :: rest =>
      match walkNode cmd src dest (rel ++ [nm]) c fs input with
      | ⟨some e, fs1, input1, tr⟩ => ⟨some e, fs1, input1, tr⟩
      | ⟨none, fs1, input1, tr⟩ =>
          match walkSiblings cmd src dest rel rest fs1 input1 with
          | ⟨r2, fs2, input2, tr2⟩ => ⟨r2, fs2, input2, tr ++ tr2⟩
end

/-- `copyDirectory` (copy.go) with the ghost trace: refuse without `-r`,
refuse a non-directory destination, then walk the source tree.  A source
root that is (now) a regular file makes `WalkDir` visit only the root,
which the callback skips; a missing root surfaces the walk error. -/
def copyDirectoryTr (cmd : Command) (src dest : FPath) (destInfo : FileInfo)
    (fs : Fs) (input : List String) : WalkOut :=
  if !cmd.recursive then ⟨some (.omittingDirectory src), fs, input, []⟩
  else if !destInfo.isDir then ⟨some (.cannotOverwriteNonDir dest src), fs, input, []⟩
  else
    match fs.root.find src with
    | some (.dir _ children) => walkSiblings cmd src dest [] children fs input
    | some (.file ..) => ⟨none, fs, input, []⟩
    | none => ⟨some (.walkFailed src), fs, input, []⟩

/-- `copyDirectory` (copy.go): the observable part of the walk. -/
def copyDirectory (cmd : Command) (src dest : FPath) (destInfo : FileInfo)
    (fs : Fs) (input : List String) : Option Err × Fs × List String :=
  let o := copyDirectoryTr cmd src dest destInfo fs input
  (o.err, o.fs, o.input)

/-- `filepath.Base` of a (nonempty) path. -/
def baseName (p : FPath) : String :=
  (p.getLast?).getD "."

/-- The final destination `copySingleFile` resolves: a directory
destination is joined with the source's base name, any other destination
is taken as is. -/
def finalDestOf (src dest : FPath) (destInfo : FileInfo) : FPath :=
  if destInfo.isDir then dest ++ [baseName src] else dest

/-- `copySingleFile` (copy.go): resolve the final destination (join with
the directory destination), detect self-copy (the isSameFile error, if
any, is swallowed), consult `shouldOverwrite` once, then transfer. -/
def copySingleFile (cmd : Command) (src dest : FPath)
    (srcInfo destInfo : FileInfo) (fs : Fs) (input : List String) :
    Option Err × Fs × List String :=
  match isSameFile fs src (finalDestOf src dest destInfo) with
  | .ok true => (some (.selfCopy src), fs, input)
  | _ =>
      match shouldOverwrite (finalDestOf src dest destInfo)
          (stat fs (finalDestOf src dest destInfo)) cmd input with
      | (should, oe, input2) =>
          match oe with
          | some e => (some e, fs, input2)
          | none =>
              if !should then (none, fs, input2)
              else
                match copySrcToDest src (finalDestOf src dest destInfo) srcInfo cmd fs with
                | (r, fs1) => (r, fs1, input2)

/-- `copySource` (copy.go): stat the source, then dispatch to the
directory or single-file path. -/
def copySource (cmd : Command) (src dest : FPath) (destInfo : FileInfo)
    (fs : Fs) (input : List String) : Option Err × Fs × List String :=
  match stat fs src with
  | none => (some (.cannotStatSource src), fs, input)
  | some srcInfo =>
      if srcInfo.isDir then copyDirectory cmd src dest destInfo fs input
      else copySingleFile cmd src dest srcInfo destInfo fs input

/-- The per-source loop of `copyFile`: every source is processed, each
error is appended to the accumulator, and the state is threaded through. -/
def processSources (cmd : Command) (sources : List FPath) (dest : FPath)
    (destInfo : FileInfo) (fs : Fs) (input : List String) :
    List Err × Fs × List String :=
  match sources with
  | [] => ([], fs, input)
  | s :: rest =>
      let (e, fs1, input1) := copySource cmd s dest destInfo fs input
      let (es, fs2, input2) := processSources cmd rest dest destInfo fs1 input1
      (e.toList ++ es, fs2, input2)

/-- `errors.Join`: `nil` for an empty collection, otherwise one combined
error wrapping the collected list. -/
def joined (errs : List Err) : Option Err :=
  if errs.isEmpty then none else some (.joined errs)

/-- Whether an error is the combined (`errors.Join`) form. -/
def Err.isJoined : Err → Bool
  | .joined _ => true
  | _ => false

/-- `copyFile` (copy.go): split off the destination (the last argument),
stat it (any failure aborts before any source is touched), check the
multi-source destination is a directory, then run the per-source loop and
join the collected errors.  `run` always passes at least two paths; on an
empty list the Go code would panic indexing the slice. -/
def copyFile (cmd : Command) (dirs : List FPath) (fs : Fs)
    (input : List String) : Option Err × Fs × List String :=
  match dirs.getLast? with
  | none => (some (.joined []), fs, input)
  | some dest =>
      let sources := dirs.dropLast
      match stat fs dest with
      | none => (some (.cannotStatDest dest), fs, input)
      | some destInfo =>
          if sources.length > 1 ∧ destInfo.isDir = false then
            (some (.targetNotDir dest), fs, input)
          else
            let (errs, fs1, input1) := processSources cmd sources dest destInfo fs input
            (joined errs, fs1, input1)

/-- The copy branch of `run` (main.go): require a source, default the
destination to the current directory, reject textually identical first
and last arguments before any filesystem access, then `copyFile`.  The
listing branch of `run` is not exercised by any claim and is not
modelled. -/
def runCopyMode (cmd : Command) (dirs : List FPath) (fs : Fs)
    (input : List String) : Option Err × Fs × List String :=
  match dirs with
  | [] => (some .noSource, fs, input)
  | d :: ds =>
      let dirs2 := if ds.isEmpty then [d, []] else d :: ds
      if dirs2.head?.getD [] = dirs2.getLast?.getD [] then
        (some .selfCopyArgs, fs, input)
      else copyFile cmd dirs2 fs input

/-! ### Basic lemmas about the tree operations -/

theorem lookupChild_setChild_self (children : List (String × FNode)) (nm : String)
    (v : FNode) (h : (lookupChild children nm).isSome) :
    lookupChild (setChild children nm v) nm = some v := by
  induction children with
  | nil => simp [lookupChild] at h
  | cons hd tl ih =>
      obtain ⟨nm', c⟩ := hd
      by_cases he : nm' = nm
      · subst he
        simp [lookupChild, setChild]
      · simp only [lookupChild, setChild, if_neg he] at h ⊢
        exact ih h

theorem lookupChild_append_self (children : List (String × FNode)) (nm : String)
    (v : FNode) (h : lookupChild children nm = none) :
    lookupChild (children ++ [(nm, v)]) nm = some v := by
  induction children with
  | nil => simp [lookupChild]
  | cons hd tl ih =>
      obtain ⟨nm', c⟩ := hd
      by_cases he : nm' = nm
      · subst he; simp [lookupChild] at h
      · simp only [lookupChild, if_neg he] at h
        simpa [lookupChild, if_neg he] using ih h

/-- The node written by a successful `setPath` is what `find` then
resolves at that path. -/
theorem find_setPath_self (p : FPath) : ∀ (n n' v : FNode),
    FNode.setPath n p v = some n' → n'.find p = some v := by
  induction p with
  | nil =>
      intro n n' v h
      simp [FNode.setPath] at h
      subst h
      simp [FNode.find]
  | cons nm rest ih =>
      intro n n' v h
      match n with
      | .file c m t a i => simp [FNode.setPath] at h
      | .dir ino children =>
          simp only [FNode.setPath] at h
          split at h
          · rename_i c hl
            split at h
            · rename_i c2 hs
              simp only [Option.some.injEq] at h
              subst h
              simp only [FNode.find]
              rw [lookupChild_setChild_self children nm c2 (by simp [hl])]
              exact ih c c2 v hs
            · cases h
          · rename_i hl
            split at h
            · rename_i hr
              simp only [Option.some.injEq] at h
              subst h
              have hre : rest = [] := by
                cases rest with
                | nil => rfl
                | cons x xs => simp at hr
              subst hre
              simp [FNode.find, lookupChild_append_self children nm v hl]
            · cases h

/-! ### C3: the overwrite decision table -/

/-- C3: `shouldOverwrite` applies its rules in the spec's order for every
target state and configuration: a nonexistent target Proceeds; a
directory target Proceeds; an existing-file target with `force` Proceeds
without invoking the prompt (no input is consumed, even when
`interactive` is also set, because force is checked first); an
existing-file target with `interactive` (and no `force`) Proceeds exactly
when the prompted line, whitespace-trimmed and lower-cased, is "y" or
"yes", and any other input (including an exhausted stream) Skips with no
error; with neither flag it fails with the already-exists conflict. -/
theorem shouldOverwrite_rules (path : FPath) (cmd : Command) (input : List String) :
    shouldOverwrite path none cmd input = (true, none, input) ∧
    (∀ info : FileInfo, info.isDir = true →
      shouldOverwrite path (some info) cmd input = (true, none, input)) ∧
    (∀ info : FileInfo, info.isDir = false → cmd.force = true →
      shouldOverwrite path (some info) cmd input = (true, none, input)) ∧
    (∀ info : FileInfo, info.isDir = false → cmd.force = false →
        cmd.interactive = true →
      ((((input.head?).getD "").trim.toLower = "y" ∨
          ((input.head?).getD "").trim.toLower = "yes") →
        shouldOverwrite path (some info) cmd input = (true, none, input.tail)) ∧
      (((input.head?).getD "").trim.toLower ≠ "y" →
          ((input.head?).getD "").trim.toLower ≠ "yes" →
        shouldOverwrite path (some info) cmd input = (false, none, input.tail))) ∧
    (∀ info : FileInfo, info.isDir = false → cmd.force = false →
        cmd.interactive = false →
      shouldOverwrite path (some info) cmd input =
        (false, some (.alreadyExists path), input)) := by
  refine ⟨rfl, ?_, ?_, ?_, ?_⟩
  · intro info h
    simp [shouldOverwrite, h]
  · intro info h hf
    simp [shouldOverwrite, h, hf]
  · intro info h hf hi
    constructor
    · intro hyes
      rcases hyes with hy | hy <;>
        simp [shouldOverwrite, h, hf, hi, prompt, hy]
    · intro h1 h2
      simp [shouldOverwrite, h, hf, hi, prompt, h1, h2]
  · intro info h hf hi
    simp [shouldOverwrite, h, hf, hi]

/-- Witness for C3: with both `force` and `interactive` set, an
existing-file target Proceeds and the input stream is untouched (the
prompt was never invoked). -/
theorem shouldOverwrite_rules_witness :
    shouldOverwrite ["t"] (some ⟨false, 420, 7, 3⟩)
      ⟨true, false, true, true, false, false⟩ ["  NO "] = (true, none, ["  NO "]) :=
  (shouldOverwrite_rules ["t"] ⟨true, false, true, true, false, false⟩
    ["  NO "]).2.2.1 ⟨false, 420, 7, 3⟩ rfl rfl

/-! ### C5: isSameFile -/

/-- A tiny filesystem with a single file `b` (inode 2). -/
def fsB : Fs := ⟨.dir 1 [("b", .file "x" 420 7 7 2)], 10⟩

/-- The command configuration with only copy mode set. -/
def cmdPlain : Command := ⟨true, false, false, false, false, false⟩

/-- C5 counterexample: when the stat of the FIRST path fails with
not-found, `isSameFile` reports the error instead of returning false
without error — the claim's "either path" reading fails on the code,
which special-cases not-found only for the second path. -/
theorem isSameFile_missing_first_cex :
    isSameFile fsB ["a"] ["b"] = .error (.statFailed ["a"]) ∧
    isSameFile fsB ["a"] ["b"] ≠ .ok false := by
  refine ⟨rfl, fun h => ?_⟩
  exact Except.noConfusion
    ((rfl :
      (Except.error (Err.statFailed ["a"]) : Except Err Bool) =
        isSameFile fsB ["a"] ["b"]).trans h)

/-- C5 amended: `isSameFile` returns true only when both paths resolve
and have the same identity; a not-found on the SECOND path yields false
without error; a stat failure on the FIRST path is returned as an error. -/
theorem isSameFile_spec (fs : Fs) (a b : FPath) :
    (isSameFile fs a b = .ok true →
      ∃ ia ib, stat fs a = some ia ∧ stat fs b = some ib ∧ ia.ino = ib.ino) ∧
    (stat fs a ≠ none → stat fs b = none → isSameFile fs a b = .ok false) ∧
    (stat fs a = none → isSameFile fs a b = .error (.statFailed a)) := by
  refine ⟨?_, ?_, ?_⟩
  · intro h
    unfold isSameFile at h
    cases ha : stat fs a with
    | none =>
        simp only [ha] at h
        exact Except.noConfusion h
    | some ia =>
        cases hb : stat fs b with
        | none =>
            simp only [ha, hb] at h
            simp at h
        | some ib =>
            simp only [ha, hb, Except.ok.injEq] at h
            exact ⟨ia, ib, rfl, rfl, by simpa using h⟩
  · intro ha hb
    unfold isSameFile
    split
    · rename_i h0; exact absurd h0 ha
    · rename_i ia ha2
      rw [hb]
  · intro ha
    unfold isSameFile
    rw [ha]

/-- Witness for C5 (amended): an existing first path and a missing
second path give `ok false`; and the error case fires on a missing
first path. -/
theorem isSameFile_spec_witness :
    isSameFile fsB ["b"] ["zz"] = .ok false ∧
    isSameFile fsB ["zz"] ["b"] = .error (.statFailed ["zz"]) :=
  ⟨(isSameFile_spec fsB ["b"] ["zz"]).2.1 (by decide) rfl,
   (isSameFile_spec fsB ["zz"] ["b"]).2.2 rfl⟩

/-! ### C10: copyFile requires the destination to stat -/

/-- C10: `copyFile` stats the destination path first and fails
immediately when that stat fails — the filesystem is untouched and no
source is processed — even though the overwrite decision itself treats a
nonexistent target as Proceed. -/
theorem copyFile_dest_stat_first (cmd : Command) (dirs : List FPath)
    (dest : FPath) (fs : Fs) (input : List String) :
    (dirs.getLast? = some dest → stat fs dest = none →
      copyFile cmd dirs fs input = (some (.cannotStatDest dest), fs, input)) ∧
    (∀ p : FPath, shouldOverwrite p none cmd input = (true, none, input)) := by
  constructor
  · intro hl hs
    unfold copyFile
    rw [hl]
    simp only [hs]
  · intro p
    rfl

/-- Witness for C10: copying an existing file to a fresh destination
name fails with the destination-stat error and changes nothing. -/
theorem copyFile_dest_stat_first_witness :
    copyFile ⟨true, false, false, false, false, false⟩ [["b"], ["zz"]] fsB [] =
      (some (.cannotStatDest ["zz"]), fsB, []) :=
  (copyFile_dest_stat_first ⟨true, false, false, false, false, false⟩
    [["b"], ["zz"]] ["zz"] fsB []).1 rfl rfl

/-! ### C8: directory source without the recursive flag -/

/-- C8: a directory source without the recursive flag fails immediately
with a message naming the offending directory, performs no traversal and
creates no destination entries (the filesystem comes back unchanged),
and the remaining sources of the same invocation are still processed
from that unchanged state. -/
theorem copyDirectory_nonrecursive (cmd : Command) (src dest : FPath)
    (destInfo : FileInfo) (fs : Fs) (input : List String) (rest : List FPath) :
    cmd.recursive = false →
    copyDirectory cmd src dest destInfo fs input =
      (some (.omittingDirectory src), fs, input) ∧
    errMessage (.omittingDirectory src) =
      "omitting directory '" ++ pathToString src ++ "' (use -r for recursive)" ∧
    (∀ si : FileInfo, stat fs src = some si → si.isDir = true →
      processSources cmd (src :: rest) dest destInfo fs input =
        (Err.omittingDirectory src ::
            (processSources cmd rest dest destInfo fs input).1,
         (processSources cmd rest dest destInfo fs input).2.1,
         (processSources cmd rest dest destInfo fs input).2.2)) := by
  intro hr
  have hcd : copyDirectory cmd src dest destInfo fs input =
      (some (.omittingDirectory src), fs, input) := by
    simp [copyDirectory, copyDirectoryTr, hr]
  refine ⟨hcd, rfl, ?_⟩
  intro si hsi hdir
  have hcs : copySource cmd src dest destInfo fs input =
      (some (.omittingDirectory src), fs, input) := by
    unfold copySource
    rw [hsi]
    simp [hdir, hcd]
  rcases hrest : processSources cmd rest dest destInfo fs input with ⟨es, fs2, inp2⟩
  simp [processSources, hcs, hrest]

/-- Witness for C8: a concrete directory source with `-r` unset is
refused, the filesystem is unchanged, and the sibling source is still
processed. -/
theorem copyDirectory_nonrecursive_witness :
    copyDirectory cmdPlain ["d"] ["b"] ⟨false, 420, 5, 3⟩ fsB [] =
      (some (.omittingDirectory ["d"]), fsB, []) :=
  ((copyDirectory_nonrecursive cmdPlain ["d"] ["b"] ⟨false, 420, 5, 3⟩ fsB [] []) rfl).1

/-! ### C7: self-copy always fails -/

/-- A filesystem with a directory `d` containing the file `f`. -/
def fsD : Fs := ⟨.dir 1 [("d", .dir 2 [("f", .file "x" 420 7 7 3)])], 10⟩

/-- C7: copying a single existing file to itself fails with a self-copy
error and never writes: the textual first-equals-last check in `run`'s
copy branch rejects up front, and otherwise `copySingleFile` detects
that the source and the resolved final destination are the same
underlying file and fails with the filesystem untouched. -/
theorem selfCopy_always_fails (cmd : Command) (p src dest : FPath)
    (srcInfo destInfo : FileInfo) (fs : Fs) (input : List String) :
    runCopyMode cmd [p, p] fs input = (some .selfCopyArgs, fs, input) ∧
    (isSameFile fs src (finalDestOf src dest destInfo) = .ok true →
      copySingleFile cmd src dest srcInfo destInfo fs input =
        (some (.selfCopy src), fs, input)) := by
  constructor
  · simp [runCopyMode]
  · intro hs
    simp only [copySingleFile, hs]

/-- Witness for C7: a file copied into its own directory resolves to
itself and fails with the self-copy error, filesystem unchanged. -/
theorem selfCopy_always_fails_witness :
    copySingleFile cmdPlain ["d", "f"] ["d"] ⟨false, 420, 7, 3⟩ ⟨true, 0, 0, 2⟩
      fsD [] = (some (.selfCopy ["d", "f"]), fsD, []) :=
  (selfCopy_always_fails cmdPlain [] ["d", "f"] ["d"] ⟨false, 420, 7, 3⟩
    ⟨true, 0, 0, 2⟩ fsD []).2 rfl

/-! ### C6: conflict on an existing destination file -/

/-- C6 counterexample: with neither flag set, a copy onto an existing
destination file that happens to BE the source (a self-copy through a
directory destination) fails with the self-copy error, not the
"already exists" conflict the claim requires of every such copy. -/
theorem conflict_no_flags_cex :
    copySingleFile cmdPlain ["d", "f"] ["d"] ⟨false, 420, 7, 3⟩ ⟨true, 0, 0, 2⟩
      fsD [] = (some (.selfCopy ["d", "f"]), fsD, []) ∧
    some (Err.selfCopy ["d", "f"]) ≠ some (Err.alreadyExists ["d", "f"]) := by
  refine ⟨rfl, fun h => ?_⟩
  injection h with h2
  exact Err.noConfusion h2

/-- C6 amended: with neither force nor interactive set, a copy onto an
existing destination file that is not the same underlying file as the
source fails with the "already exists" conflict on the resolved target,
whose message names the path and the remedy flags, and the filesystem
(in particular the destination's byte content) is left unchanged. -/
theorem conflict_no_flags (cmd : Command) (src dest : FPath)
    (srcInfo destInfo : FileInfo) (fs : Fs) (input : List String) :
    cmd.force = false → cmd.interactive = false →
    isSameFile fs src (finalDestOf src dest destInfo) ≠ .ok true →
    (∀ ti : FileInfo, stat fs (finalDestOf src dest destInfo) = some ti →
      ti.isDir = false →
      copySingleFile cmd src dest srcInfo destInfo fs input =
        (some (.alreadyExists (finalDestOf src dest destInfo)), fs, input)) ∧
    errMessage (.alreadyExists (finalDestOf src dest destInfo)) =
      "'" ++ pathToString (finalDestOf src dest destInfo) ++
        "' already exists (use -f to force or -i for interactive)" := by
  intro hf hi hsame
  refine ⟨?_, rfl⟩
  intro ti hti hdir
  cases hval : isSameFile fs src (finalDestOf src dest destInfo) with
  | ok b =>
      cases b with
      | true => exact absurd hval hsame
      | false =>
          unfold copySingleFile
          rw [hval, hti]
          simp [shouldOverwrite, hdir, hf, hi]
  | error e =>
      unfold copySingleFile
      rw [hval, hti]
      simp [shouldOverwrite, hdir, hf, hi]

/-- A filesystem with two distinct files `a` and `b`. -/
def fsE : Fs := ⟨.dir 1 [("a", .file "new" 420 7 7 2), ("b", .file "old" 416 5 5 3)], 10⟩

/-- Witness for C6 (amended): copying `a` onto the existing distinct
file `b` with no flags fails with the conflict and changes nothing. -/
theorem conflict_no_flags_witness :
    copySingleFile cmdPlain ["a"] ["b"] ⟨false, 420, 7, 2⟩ ⟨false, 416, 5, 3⟩
      fsE [] = (some (.alreadyExists ["b"]), fsE, []) := by
  have hne : isSameFile fsE ["a"] (finalDestOf ["a"] ["b"] ⟨false, 416, 5, 3⟩) ≠
      .ok true := by
    intro hcontra
    rw [show isSameFile fsE ["a"] (finalDestOf ["a"] ["b"] ⟨false, 416, 5, 3⟩) =
        Except.ok false from rfl] at hcontra
    simp at hcontra
  exact (conflict_no_flags cmdPlain ["a"] ["b"] ⟨false, 420, 7, 2⟩
    ⟨false, 416, 5, 3⟩ fsE [] rfl rfl hne).1 ⟨false, 416, 5, 3⟩ rfl rfl

/-! ### C2: error aggregation across sources -/

/-- C2 counterexample: when the destination's stat fails, `copyFile`
aborts before processing ANY source: the result is neither Ok nor a
combined (`errors.Join`) failure built from per-source errors, and the
filesystem is untouched — the (perfectly valid) source was never
copied. -/
theorem copyFile_aggregates_cex :
    copyFile cmdPlain [["a"], ["zz"]] fsE [] =
      (some (.cannotStatDest ["zz"]), fsE, []) ∧
    Err.isJoined (Err.cannotStatDest ["zz"]) = false :=
  ⟨rfl, rfl⟩

/-- C2 amended: once the destination precondition passes (its stat
succeeds, and with more than one source it is a directory), `copyFile`
is exactly the per-source loop: the loop splits over any partition of
the sources — later sources are processed from whatever state the
earlier ones left, regardless of their failures — the collected errors
are those of the sources in order, and the call returns Ok exactly when
none was collected, otherwise the single combined failure enumerating
them. -/
theorem copyFile_aggregates (cmd : Command) (dirs : List FPath) (dest : FPath)
    (destInfo : FileInfo) (fs : Fs) (input : List String) :
    dirs.getLast? = some dest →
    stat fs dest = some destInfo →
    (dirs.dropLast.length > 1 → destInfo.isDir = true) →
    (copyFile cmd dirs fs input =
      (joined (processSources cmd dirs.dropLast dest destInfo fs input).1,
       (processSources cmd dirs.dropLast dest destInfo fs input).2.1,
       (processSources cmd dirs.dropLast dest destInfo fs input).2.2)) ∧
    (∀ errs : List Err, joined errs = none ↔ errs = []) ∧
    (∀ errs : List Err, errs ≠ [] → joined errs = some (.joined errs)) ∧
    (∀ (xs ys : List FPath) (fs0 : Fs) (inp : List String),
      processSources cmd (xs ++ ys) dest destInfo fs0 inp =
        ((processSources cmd xs dest destInfo fs0 inp).1 ++
          (processSources cmd ys dest destInfo
            (processSources cmd xs dest destInfo fs0 inp).2.1
            (processSources cmd xs dest destInfo fs0 inp).2.2).1,
         (processSources cmd ys dest destInfo
            (processSources cmd xs dest destInfo fs0 inp).2.1
            (processSources cmd xs dest destInfo fs0 inp).2.2).2.1,
         (processSources cmd ys dest destInfo
            (processSources cmd xs dest destInfo fs0 inp).2.1
            (processSources cmd xs dest destInfo fs0 inp).2.2).2.2)) := by
  intro hl hstat himp
  refine ⟨?_, ?_, ?_, ?_⟩
  · unfold copyFile
    rw [hl]
    simp only [hstat]
    have hcond : ¬(dirs.dropLast.length > 1 ∧ destInfo.isDir = false) := by
      rintro ⟨h1, h2⟩
      rw [himp h1] at h2
      cases h2
    rw [if_neg hcond]
  · intro errs
    cases errs <;> simp [joined]
  · intro errs h
    cases errs with
    | nil => exact absurd rfl h
    | cons e es => simp [joined]
  · intro xs ys
    induction xs with
    | nil =>
        intro fs0 inp
        simp [processSources]
    | cons s xs ih =>
        intro fs0 inp
        rcases hcs : copySource cmd s dest destInfo fs0 inp with ⟨e, fs1, inp1⟩
        rcases hx : processSources cmd xs dest destInfo fs1 inp1 with ⟨es1, fs2, inp2⟩
        rcases hy : processSources cmd ys dest destInfo fs2 inp2 with ⟨es2, fs3, inp3⟩
        simp [processSources, List.cons_append, hcs, hx, hy, ih fs1 inp1,
          List.append_assoc]

/-- Witness for C2 (amended): a concrete two-path invocation whose
single source hits the conflict; the result is the combined failure
holding exactly that error, with the filesystem unchanged. -/
theorem copyFile_aggregates_witness :
    copyFile cmdPlain [["a"], ["b"]] fsE [] =
      (some (.joined [.alreadyExists ["b"]]), fsE, []) :=
  ((copyFile_aggregates cmdPlain [["a"], ["b"]] ["b"] ⟨false, 416, 5, 3⟩ fsE []
    rfl rfl (fun h => absurd h (by decide))).1).trans rfl

/-! ### C4: permission and timestamp preservation -/

/-- A successful `finishCopy` leaves at the destination a file carrying
the captured source mode and the captured modification time on both
time fields. -/
theorem finishCopy_metadata (src dst : FPath) (srcInfo : FileInfo) (ino : Nat)
    (fsmid fs1 : Fs) :
    finishCopy src dst srcInfo ino fsmid = (none, fs1) →
    ∃ content i,
      fs1.root.find dst =
        some (.file content srcInfo.mode srcInfo.modTime srcInfo.modTime i) := by
  intro h
  unfold finishCopy at h
  split at h
  · rename_i content m0 t0 a0 i0 hfind
    split at h
    · rename_i r hset
      simp only [Prod.mk.injEq] at h
      obtain ⟨-, h2⟩ := h
      subst h2
      exact ⟨content, ino, find_setPath_self dst _ _ _ hset⟩
    · simp at h
  · simp at h

/-- C4: after a successful non-dry-run `copySrcToDest`, the destination
holds a regular file whose permission bits equal the captured source
mode and whose modification and access timestamps both equal the
captured source modification time (exactly what the final Chmod and
Chtimes set), regardless of any pre-existing destination metadata. -/
theorem copySrcToDest_metadata (src dst : FPath) (srcInfo : FileInfo)
    (cmd : Command) (fs fs1 : Fs) :
    cmd.dryRun = false →
    copySrcToDest src dst srcInfo cmd fs = (none, fs1) →
    ∃ content ino,
      fs1.root.find dst =
        some (.file content srcInfo.mode srcInfo.modTime srcInfo.modTime ino) := by
  intro hdry h
  unfold copySrcToDest at h
  rw [if_neg (by simp [hdry] : ¬cmd.dryRun = true)] at h
  split at h
  · simp at h
  · split at h
    · simp at h
    all_goals exact finishCopy_metadata _ _ _ _ _ _ h

/-- Witness for C4: a concrete copy onto a fresh name yields a file
carrying the captured mode 420 and timestamp 7 on both time fields. -/
theorem copySrcToDest_metadata_witness :
    ∃ content ino,
      ((copySrcToDest ["a"] ["c"] ⟨false, 420, 7, 2⟩ cmdPlain fsE).2).root.find ["c"] =
        some (.file content 420 7 7 ino) :=
  copySrcToDest_metadata ["a"] ["c"] ⟨false, 420, 7, 2⟩ cmdPlain fsE
    (copySrcToDest ["a"] ["c"] ⟨false, 420, 7, 2⟩ cmdPlain fsE).2 rfl rfl

/-! ### Path prefix machinery (for framing the walk's writes) -/

/-- Boolean test: `p` is a prefix of `q` (componentwise). -/
def isPref : FPath → FPath → Bool
  | [], _ => true
  | _ :: _, [] => false
  | a :: p, b :: q => a == b && isPref p q

/-- `p` is a prefix of `q`. -/
def PathPre (p q : FPath) : Prop := ∃ r, p ++ r = q

theorem isPref_iff (p : FPath) : ∀ q : FPath, isPref p q = true ↔ PathPre p q := by
  induction p with
  | nil =>
      intro q
      simp [isPref, PathPre]
  | cons a p ih =>
      intro q
      cases q with
      | nil =>
          simp only [isPref, PathPre]
          constructor
          · intro h; cases h
          · rintro ⟨r, hr⟩; cases hr
      | cons b q =>
          simp only [isPref, Bool.and_eq_true, beq_iff_eq]
          constructor
          · rintro ⟨rfl, h⟩
            obtain ⟨r, hr⟩ := (ih q).1 h
            exact ⟨r, by simp [hr]⟩
          · rintro ⟨r, hr⟩
            simp only [List.cons_append, List.cons.injEq] at hr
            obtain ⟨rfl, hr2⟩ := hr
            exact ⟨rfl, (ih q).2 ⟨r, hr2⟩⟩

theorem pathPre_self (p : FPath) : PathPre p p := ⟨[], by simp⟩

theorem pathPre_trans {p q r : FPath} (h1 : PathPre p q) (h2 : PathPre q r) :
    PathPre p r := by
  obtain ⟨a, ha⟩ := h1
  obtain ⟨b, hb⟩ := h2
  exact ⟨a ++ b, by rw [← List.append_assoc, ha, hb]⟩

theorem pathPre_append (p r : FPath) : PathPre p (p ++ r) := ⟨r, rfl⟩

theorem pathPre_nil (p : FPath) : PathPre [] p := ⟨p, rfl⟩

theorem pathPre_cons_iff {a b : String} {p q : FPath} :
    PathPre (a :: p) (b :: q) ↔ a = b ∧ PathPre p q := by
  constructor
  · rintro ⟨r, hr⟩
    simp only [List.cons_append, List.cons.injEq] at hr
    exact ⟨hr.1, ⟨r, hr.2⟩⟩
  · rintro ⟨rfl, ⟨r, hr⟩⟩
    exact ⟨r, by simp [hr]⟩

/-- One of two prefixes of the same list is a prefix of the other, the
shorter of the longer. -/
theorem pathPre_of_le {p1 p2 L : FPath} (h1 : PathPre p1 L) (h2 : PathPre p2 L)
    (hle : p1.length ≤ p2.length) : PathPre p1 p2 := by
  obtain ⟨r1, hr1⟩ := h1
  obtain ⟨r2, hr2⟩ := h2
  refine ⟨(L.take p2.length).drop p1.length, ?_⟩
  have e1 : (L.take p2.length).take p1.length = p1 := by
    rw [List.take_take, min_eq_left hle, ← hr1, List.take_left]
  have e2 : L.take p2.length = p2 := by
    rw [← hr2, List.take_left]
  calc p1 ++ (L.take p2.length).drop p1.length
      = (L.take p2.length).take p1.length ++ (L.take p2.length).drop p1.length := by
        rw [e1]
    _ = L.take p2.length := List.take_append_drop _ _
    _ = p2 := e2

theorem pathPre_comparable {p1 p2 L : FPath} (h1 : PathPre p1 L) (h2 : PathPre p2 L) :
    PathPre p1 p2 ∨ PathPre p2 p1 := by
  rcases le_total p1.length p2.length with hle | hle
  · exact Or.inl (pathPre_of_le h1 h2 hle)
  · exact Or.inr (pathPre_of_le h2 h1 hle)

/-- Disjoint roots stay unrelated under arbitrary extension on both
sides: writes under the destination never touch the source subtree. -/
theorem notRel_of_disjoint {src dest : FPath}
    (hsd : ¬ PathPre src dest) (hds : ¬ PathPre dest src) (x y : FPath) :
    ¬ PathPre (src ++ x) (dest ++ y) := by
  intro h
  have h1 : PathPre src (dest ++ y) := pathPre_trans (pathPre_append src x) h
  have h2 : PathPre dest (dest ++ y) := pathPre_append dest y
  rcases pathPre_comparable h1 h2 with hc | hc
  · exact hsd hc
  · exact hds hc

/-! ### find over concatenated paths -/

theorem find_append (p : FPath) : ∀ (q : FPath) (n : FNode),
    n.find (p ++ q) = (n.find p).bind (fun m => m.find q) := by
  induction p with
  | nil =>
      intro q n
      simp [FNode.find]
  | cons nm rest ih =>
      intro q n
      match n with
      | .file c m t a i => simp [FNode.find]
      | .dir i children =>
          simp only [List.cons_append, FNode.find]
          cases hl : lookupChild children nm with
          | some c => simp [ih]
          | none => simp

/-! ### Directory entry lookup lemmas -/

theorem lookupChild_setChild_ne (children : List (String × FNode)) (nm pm : String)
    (v : FNode) (hne : pm ≠ nm) :
    lookupChild (setChild children nm v) pm = lookupChild children pm := by
  induction children with
  | nil => simp [setChild, lookupChild]
  | cons hd tl ih =>
      obtain ⟨nm0, c0⟩ := hd
      by_cases h0 : nm0 = nm
      · subst h0
        simp [setChild, lookupChild, Ne.symm hne, hne]
      · simp [setChild, lookupChild, h0, ih]

theorem lookupChild_append_ne (children : List (String × FNode)) (nm pm : String)
    (v : FNode) (hne : pm ≠ nm) :
    lookupChild (children ++ [(nm, v)]) pm = lookupChild children pm := by
  induction children with
  | nil => simp [lookupChild, Ne.symm hne]
  | cons hd tl ih =>
      obtain ⟨nm0, c0⟩ := hd
      by_cases h0 : nm0 = pm
      · simp [lookupChild, h0]
      · simp [lookupChild, h0, ih]

theorem lookupChild_mem {children : List (String × FNode)} {nm : String} {c : FNode}
    (h : lookupChild children nm = some c) : (nm, c) ∈ children := by
  induction children with
  | nil => simp [lookupChild] at h
  | cons hd tl ih =>
      obtain ⟨nm0, c0⟩ := hd
      by_cases h0 : nm0 = nm
      · subst h0
        simp [lookupChild] at h
        simp [h]
      · simp only [lookupChild, if_neg h0] at h
        exact List.mem_cons_of_mem _ (ih h)

theorem lookupChild_isSome_of_mem {children : List (String × FNode)} {nm : String}
    {c : FNode} (h : (nm, c) ∈ children) : (lookupChild children nm).isSome = true := by
  induction children with
  | nil => simp at h
  | cons hd tl ih =>
      obtain ⟨nm0, c0⟩ := hd
      rcases List.mem_cons.1 h with he | hm
      · injection he with h1 h2
        subst h1
        simp [lookupChild]
      · by_cases h0 : nm0 = nm
        · simp [lookupChild, h0]
        · simp only [lookupChild, if_neg h0]
          exact ih hm

/-- Uniqueness of entry names in one directory. -/
def nodupKeys : List (String × FNode) → Bool
  | [] => true
  | (nm, _) :: rest => !(lookupChild rest nm).isSome && nodupKeys rest

theorem lookupChild_of_nodup_mem {children : List (String × FNode)} {nm : String}
    {c : FNode} (hnd : nodupKeys children = true) (hm : (nm, c) ∈ children) :
    lookupChild children nm = some c := by
  induction children with
  | nil => simp at hm
  | cons hd tl ih =>
      obtain ⟨nm0, c0⟩ := hd
      simp only [nodupKeys, Bool.and_eq_true, Bool.not_eq_true'] at hnd
      obtain ⟨h1, h2⟩ := hnd
      rcases List.mem_cons.1 hm with he | hmm
      · injection he with ha hb
        subst ha
        subst hb
        simp [lookupChild]
      · by_cases h0 : nm0 = nm
        · subst h0
          have hs := lookupChild_isSome_of_mem hmm
          rw [hs] at h1
          cases h1
        · simp only [lookupChild, if_neg h0]
          exact ih h2 hmm

mutual
/-- Well-formedness: every directory in the tree has distinct entry
names (as every real filesystem directory does). -/
def nodeWF : FNode → Bool
  | .file .. => true
  | .dir _ children => nodupKeys children && childrenWF children

def childrenWF : List (String × FNode) → Bool
  | [] => true
  | (_, c) :: rest => nodeWF c && childrenWF rest
end

theorem childrenWF_mem : ∀ {l : List (String × FNode)} {nm : String} {c : FNode},
    childrenWF l = true → (nm, c) ∈ l → nodeWF c = true := by
  intro l
  induction l with
  | nil => intro nm c _ hm; simp at hm
  | cons hd tl ih =>
      intro nm c hwf hm
      obtain ⟨nm0, c0⟩ := hd
      simp only [childrenWF, Bool.and_eq_true] at hwf
      rcases List.mem_cons.1 hm with he | hmm
      · injection he with h1 h2
        subst h2
        exact hwf.1
      · exact ih hwf.2 hmm

theorem find_WF : ∀ (p : FPath) (n m : FNode),
    nodeWF n = true → n.find p = some m → nodeWF m = true := by
  intro p
  induction p with
  | nil =>
      intro n m hwf h
      simp [FNode.find] at h
      subst h
      exact hwf
  | cons nm rest ih =>
      intro n m hwf h
      match n with
      | .file c m0 t0 a0 i0 => simp [FNode.find] at h
      | .dir i children =>
          simp only [FNode.find] at h
          cases hl : lookupChild children nm with
          | some c =>
              rw [hl] at h
              simp only [nodeWF, Bool.and_eq_true] at hwf
              exact ih c m (childrenWF_mem hwf.2 (lookupChild_mem hl)) h
          | none => rw [hl] at h; cases h

/-! ### setPath: frame, presence, and directory preservation -/

/-- The guard under which the copy engine ever writes with `setPath`:
the written path currently holds nothing or a regular file (so no
directory subtree is ever displaced). -/
def FileOrNone (root : FNode) (P : FPath) : Prop :=
  root.find P = none ∨ ∃ c m t a i, root.find P = some (.file c m t a i)

theorem fileOrNone_descend {i : Nat} {children : List (String × FNode)} {nm : String}
    {c : FNode} {rest : FPath} (hl : lookupChild children nm = some c)
    (hg : FileOrNone (.dir i children) (nm :: rest)) : FileOrNone c rest := by
  have he : FNode.find (.dir i children) (nm :: rest) = c.find rest := by
    simp [FNode.find, hl]
  rcases hg with hg | ⟨cc, mm, tt, aa, ii, hg⟩
  · exact Or.inl (by rw [← he]; exact hg)
  · exact Or.inr ⟨cc, mm, tt, aa, ii, by rw [← he]; exact hg⟩

/-- Paths unrelated to the written path are untouched by `setPath`. -/
theorem setPath_frame (P : FPath) : ∀ (root root' v : FNode),
    root.setPath P v = some root' →
    ∀ p : FPath, ¬ PathPre p P → ¬ PathPre P p → root'.find p = root.find p := by
  induction P with
  | nil =>
      intro root root' v hset p hp1 hp2
      exact absurd (pathPre_nil p) hp2
  | cons nm rest ih =>
      intro root root' v hset p hp1 hp2
      match root with
      | .file c m t a i => simp [FNode.setPath] at hset
      | .dir i children =>
          simp only [FNode.setPath] at hset
          split at hset
          · rename_i c hl
            split at hset
            · rename_i c2 hs
              simp only [Option.some.injEq] at hset
              subst hset
              cases p with
              | nil => exact absurd (pathPre_nil _) hp1
              | cons pm pt =>
                  by_cases hpm : pm = nm
                  · subst hpm
                    have h1 : ¬ PathPre pt rest := fun h =>
                      hp1 (pathPre_cons_iff.2 ⟨rfl, h⟩)
                    have h2 : ¬ PathPre rest pt := fun h =>
                      hp2 (pathPre_cons_iff.2 ⟨rfl, h⟩)
                    simp only [FNode.find,
                      lookupChild_setChild_self children pm c2 (by simp [hl]), hl]
                    exact ih c c2 v hs pt h1 h2
                  · simp only [FNode.find,
                      lookupChild_setChild_ne children nm pm c2 hpm]
            · cases hset
          · rename_i hl
            split at hset
            · rename_i hr
              have hre : rest = [] := by
                cases rest with
                | nil => rfl
                | cons x xs => simp at hr
              subst hre
              simp only [Option.some.injEq] at hset
              subst hset
              cases p with
              | nil => exact absurd (pathPre_nil _) hp1
              | cons pm pt =>
                  by_cases hpm : pm = nm
                  · subst hpm
                    exact absurd ⟨pt, rfl⟩ hp2
                  · simp only [FNode.find,
                      lookupChild_append_ne children nm pm v hpm]
            · cases hset

/-- A guarded `setPath` never removes an entry: every path that resolved
before still resolves. -/
theorem setPath_presence (P : FPath) : ∀ (root root' v : FNode),
    FileOrNone root P →
    root.setPath P v = some root' →
    ∀ p : FPath, root.find p ≠ none → root'.find p ≠ none := by
  induction P with
  | nil =>
      intro root root' v hg hset p hp
      simp only [FNode.setPath, Option.some.injEq] at hset
      subst hset
      rcases hg with hg | ⟨c, m, t, a, i, hg⟩
      · simp [FNode.find] at hg
      · simp only [FNode.find, Option.some.injEq] at hg
        subst hg
        cases p with
        | nil => simp [FNode.find]
        | cons pm pt => simp [FNode.find] at hp
  | cons nm rest ih =>
      intro root root' v hg hset p hp
      match root with
      | .file c m t a i => simp [FNode.setPath] at hset
      | .dir i children =>
          simp only [FNode.setPath] at hset
          split at hset
          · rename_i c hl
            split at hset
            · rename_i c2 hs
              simp only [Option.some.injEq] at hset
              subst hset
              cases p with
              | nil => simp [FNode.find]
              | cons pm pt =>
                  by_cases hpm : pm = nm
                  · subst hpm
                    simp only [FNode.find,
                      lookupChild_setChild_self children pm c2 (by simp [hl])]
                    simp only [FNode.find, hl] at hp
                    exact ih c c2 v (fileOrNone_descend hl hg) hs pt hp
                  · simp only [FNode.find,
                      lookupChild_setChild_ne children nm pm c2 hpm]
                    simp only [FNode.find] at hp
                    exact hp
            · cases hset
          · rename_i hl
            split at hset
            · rename_i hr
              have hre : rest = [] := by
                cases rest with
                | nil => rfl
                | cons x xs => simp at hr
              subst hre
              simp only [Option.some.injEq] at hset
              subst hset
              cases p with
              | nil => simp [FNode.find]
              | cons pm pt =>
                  by_cases hpm : pm = nm
                  · subst hpm
                    simp only [FNode.find, hl] at hp
                    exact absurd rfl hp
                  · simp only [FNode.find,
                      lookupChild_append_ne children nm pm v hpm]
                    simp only [FNode.find] at hp
                    exact hp
            · cases hset

/-- A guarded `setPath` keeps every directory a directory (its children
may change, but it never becomes a file or disappears). -/
theorem setPath_dirs (P : FPath) : ∀ (root root' v : FNode),
    FileOrNone root P →
    root.setPath P v = some root' →
    ∀ (p : FPath) (di : Nat) (dch : List (String × FNode)),
      root.find p = some (.dir di dch) →
      ∃ di' dch', root'.find p = some (.dir di' dch') := by
  induction P with
  | nil =>
      intro root root' v hg hset p di dch hp
      simp only [FNode.setPath, Option.some.injEq] at hset
      subst hset
      rcases hg with hg | ⟨c, m, t, a, i, hg⟩
      · simp [FNode.find] at hg
      · simp only [FNode.find, Option.some.injEq] at hg
        subst hg
        cases p with
        | nil => simp [FNode.find] at hp
        | cons pm pt => simp [FNode.find] at hp
  | cons nm rest ih =>
      intro root root' v hg hset p di dch hp
      match root with
      | .file c m t a i => simp [FNode.setPath] at hset
      | .dir i children =>
          simp only [FNode.setPath] at hset
          split at hset
          · rename_i c hl
            split at hset
            · rename_i c2 hs
              simp only [Option.some.injEq] at hset
              subst hset
              cases p with
              | nil => exact ⟨i, _, rfl⟩
              | cons pm pt =>
                  by_cases hpm : pm = nm
                  · subst hpm
                    simp only [FNode.find,
                      lookupChild_setChild_self children pm c2 (by simp [hl])]
                    simp only [FNode.find, hl] at hp
                    exact ih c c2 v (fileOrNone_descend hl hg) hs pt di dch hp
                  · simp only [FNode.find,
                      lookupChild_setChild_ne children nm pm c2 hpm]
                    simp only [FNode.find] at hp
                    exact ⟨di, dch, hp⟩
            · cases hset
          · rename_i hl
            split at hset
            · rename_i hr
              have hre : rest = [] := by
                cases rest with
                | nil => rfl
                | cons x xs => simp at hr
              subst hre
              simp only [Option.some.injEq] at hset
              subst hset
              cases p with
              | nil => exact ⟨i, _, rfl⟩
              | cons pm pt =>
                  by_cases hpm : pm = nm
                  · subst hpm
                    simp only [FNode.find, hl] at hp
                    exact Option.noConfusion hp
                  · simp only [FNode.find,
                      lookupChild_append_ne children nm pm v hpm]
                    simp only [FNode.find] at hp
                    exact ⟨di, dch, hp⟩
            · cases hset

/-! ### mkdirAll: created chain, frame, and preservation -/

theorem freshChain_find_self (rest : FPath) : ∀ next : Nat,
    ∃ j, (freshChain rest next).1.find rest = some (.dir j []) := by
  induction rest with
  | nil => intro next; exact ⟨next, rfl⟩
  | cons nm rest ih =>
      intro next
      obtain ⟨j, hj⟩ := ih next
      simp only [freshChain]
      rcases hfc : freshChain rest next with ⟨sub, next2⟩
      rw [hfc] at hj
      exact ⟨j, by simp [FNode.find, lookupChild, hj]⟩

theorem freshChain_find_off (rest : FPath) : ∀ (pt : FPath) (next : Nat),
    ¬ PathPre pt rest → ¬ PathPre rest pt →
    (freshChain rest next).1.find pt = none := by
  induction rest with
  | nil =>
      intro pt next h1 h2
      cases pt with
      | nil => exact absurd (pathPre_nil _) h1
      | cons pm pt2 => simp [freshChain, FNode.find, lookupChild]
  | cons r0 rest ih =>
      intro pt next h1 h2
      cases pt with
      | nil => exact absurd (pathPre_nil _) h1
      | cons pm pt2 =>
          simp only [freshChain]
          rcases hfc : freshChain rest next with ⟨sub, next2⟩
          by_cases hpm : pm = r0
          · subst hpm
            have g1 : ¬ PathPre pt2 rest := fun h => h1 (pathPre_cons_iff.2 ⟨rfl, h⟩)
            have g2 : ¬ PathPre rest pt2 := fun h => h2 (pathPre_cons_iff.2 ⟨rfl, h⟩)
            have := ih pt2 next g1 g2
            rw [hfc] at this
            simp [FNode.find, lookupChild, this]
          · simp [FNode.find, lookupChild, Ne.symm hpm]

theorem mkdirAllAux_dirAt (p : FPath) : ∀ (root root' : FNode) (next next' : Nat)
    (whole : FPath), mkdirAllAux root p next whole = .ok (root', next') →
    ∃ i ch, root'.find p = some (.dir i ch) := by
  induction p with
  | nil =>
      intro root root' next next' whole h
      match root with
      | .file .. => simp [mkdirAllAux] at h
      | .dir i ch =>
          simp only [mkdirAllAux, Except.ok.injEq, Prod.mk.injEq] at h
          obtain ⟨h1, -⟩ := h
          subst h1
          exact ⟨i, ch, rfl⟩
  | cons nm rest ih =>
      intro root root' next next' whole h
      match root with
      | .file .. => simp [mkdirAllAux] at h
      | .dir ino children =>
          simp only [mkdirAllAux] at h
          split at h
          · rename_i c hl
            split at h
            · rename_i c2 next2 hrec
              simp only [Except.ok.injEq, Prod.mk.injEq] at h
              obtain ⟨h1, -⟩ := h
              subst h1
              obtain ⟨i2, ch2, hfind⟩ := ih c c2 next next2 whole hrec
              exact ⟨i2, ch2, by
                simp [FNode.find,
                  lookupChild_setChild_self children nm c2 (by simp [hl]), hfind]⟩
            · cases h
          · rename_i hl
            rcases hfc : freshChain rest next with ⟨sub, next2⟩
            rw [hfc] at h
            simp only [Except.ok.injEq, Prod.mk.injEq] at h
            obtain ⟨h1, -⟩ := h
            subst h1
            obtain ⟨j, hj⟩ := freshChain_find_self rest next
            rw [hfc] at hj
            exact ⟨j, [], by
              simp [FNode.find, lookupChild_append_self children nm sub hl, hj]⟩

theorem mkdirAllAux_frame (p : FPath) : ∀ (root root' : FNode) (next next' : Nat)
    (whole : FPath), mkdirAllAux root p next whole = .ok (root', next') →
    ∀ p' : FPath, ¬ PathPre p' p → ¬ PathPre p p' → root'.find p' = root.find p' := by
  induction p with
  | nil =>
      intro root root' next next' whole h p' hp1 hp2
      exact absurd (pathPre_nil p') hp2
  | cons nm rest ih =>
      intro root root' next next' whole h p' hp1 hp2
      match root with
      | .file .. => simp [mkdirAllAux] at h
      | .dir ino children =>
          simp only [mkdirAllAux] at h
          split at h
          · rename_i c hl
            split at h
            · rename_i c2 next2 hrec
              simp only [Except.ok.injEq, Prod.mk.injEq] at h
              obtain ⟨h1, -⟩ := h
              subst h1
              cases p' with
              | nil => exact absurd (pathPre_nil _) hp1
              | cons pm pt =>
                  by_cases hpm : pm = nm
                  · subst hpm
                    have g1 : ¬ PathPre pt rest := fun hq =>
                      hp1 (pathPre_cons_iff.2 ⟨rfl, hq⟩)
                    have g2 : ¬ PathPre rest pt := fun hq =>
                      hp2 (pathPre_cons_iff.2 ⟨rfl, hq⟩)
                    simp only [FNode.find,
                      lookupChild_setChild_self children pm c2 (by simp [hl]), hl]
                    exact ih c c2 next next2 whole hrec pt g1 g2
                  · simp only [FNode.find,
                      lookupChild_setChild_ne children nm pm c2 hpm]
            · cases h
          · rename_i hl
            rcases hfc : freshChain rest next with ⟨sub, next2⟩
            rw [hfc] at h
            simp only [Except.ok.injEq, Prod.mk.injEq] at h
            obtain ⟨h1, -⟩ := h
            subst h1
            cases p' with
            | nil => exact absurd (pathPre_nil _) hp1
            | cons pm pt =>
                by_cases hpm : pm = nm
                · subst hpm
                  have g1 : ¬ PathPre pt rest := fun hq =>
                    hp1 (pathPre_cons_iff.2 ⟨rfl, hq⟩)
                  have g2 : ¬ PathPre rest pt := fun hq =>
                    hp2 (pathPre_cons_iff.2 ⟨rfl, hq⟩)
                  have hoff := freshChain_find_off rest pt next g1 g2
                  rw [hfc] at hoff
                  simp [FNode.find, lookupChild_append_self children pm sub hl, hoff, hl]
                · simp only [FNode.find,
                    lookupChild_append_ne children nm pm sub hpm]

theorem mkdirAllAux_files (p : FPath) : ∀ (root root' : FNode) (next next' : Nat)
    (whole : FPath), mkdirAllAux root p next whole = .ok (root', next') →
    ∀ (p' : FPath) (c0 : String) (m0 t0 a0 i0 : Nat),
      root.find p' = some (.file c0 m0 t0 a0 i0) →
      root'.find p' = some (.file c0 m0 t0 a0 i0) := by
  induction p with
  | nil =>
      intro root root' next next' whole h p' c0 m0 t0 a0 i0 hp
      match root with
      | .file .. => simp [mkdirAllAux] at h
      | .dir i ch =>
          simp only [mkdirAllAux, Except.ok.injEq, Prod.mk.injEq] at h
          obtain ⟨h1, -⟩ := h
          subst h1
          exact hp
  | cons nm rest ih =>
      intro root root' next next' whole h p' c0 m0 t0 a0 i0 hp
      match root with
      | .file .. => simp [mkdirAllAux] at h
      | .dir ino children =>
          simp only [mkdirAllAux] at h
          split at h
          · rename_i c hl
            split at h
            · rename_i c2 next2 hrec
              simp only [Except.ok.injEq, Prod.mk.injEq] at h
              obtain ⟨h1, -⟩ := h
              subst h1
              cases p' with
              | nil => simp [FNode.find] at hp
              | cons pm pt =>
                  by_cases hpm : pm = nm
                  · subst hpm
                    simp only [FNode.find, hl] at hp
                    simp only [FNode.find,
                      lookupChild_setChild_self children pm c2 (by simp [hl])]
                    exact ih c c2 next next2 whole hrec pt c0 m0 t0 a0 i0 hp
                  · simp only [FNode.find] at hp
                    simp only [FNode.find,
                      lookupChild_setChild_ne children nm pm c2 hpm]
                    exact hp
            · cases h
          · rename_i hl
            rcases hfc : freshChain rest next with ⟨sub, next2⟩
            rw [hfc] at h
            simp only [Except.ok.injEq, Prod.mk.injEq] at h
            obtain ⟨h1, -⟩ := h
            subst h1
            cases p' with
            | nil => simp [FNode.find] at hp
            | cons pm pt =>
                by_cases hpm : pm = nm
                · subst hpm
                  simp only [FNode.find, hl] at hp
                  exact Option.noConfusion hp
                · simp only [FNode.find] at hp
                  simp only [FNode.find,
                    lookupChild_append_ne children nm pm sub hpm]
                  exact hp

theorem mkdirAllAux_presence (p : FPath) : ∀ (root root' : FNode) (next next' : Nat)
    (whole : FPath), mkdirAllAux root p next whole = .ok (root', next') →
    ∀ p' : FPath, root.find p' ≠ none → root'.find p' ≠ none := by
  induction p with
  | nil =>
      intro root root' next next' whole h p' hp
      match root with
      | .file .. => simp [mkdirAllAux] at h
      | .dir i ch =>
          simp only [mkdirAllAux, Except.ok.injEq, Prod.mk.injEq] at h
          obtain ⟨h1, -⟩ := h
          subst h1
          exact hp
  | cons nm rest ih =>
      intro root root' next next' whole h p' hp
      match root with
      | .file .. => simp [mkdirAllAux] at h
      | .dir ino children =>
          simp only [mkdirAllAux] at h
          split at h
          · rename_i c hl
            split at h
            · rename_i c2 next2 hrec
              simp only [Except.ok.injEq, Prod.mk.injEq] at h
              obtain ⟨h1, -⟩ := h
              subst h1
              cases p' with
              | nil => simp [FNode.find]
              | cons pm pt =>
                  by_cases hpm : pm = nm
                  · subst hpm
                    simp only [FNode.find, hl] at hp
                    simp only [FNode.find,
                      lookupChild_setChild_self children pm c2 (by simp [hl])]
                    exact ih c c2 next next2 whole hrec pt hp
                  · simp only [FNode.find] at hp
                    simp only [FNode.find,
                      lookupChild_setChild_ne children nm pm c2 hpm]
                    exact hp
            · cases h
          · rename_i hl
            rcases hfc : freshChain rest next with ⟨sub, next2⟩
            rw [hfc] at h
            simp only [Except.ok.injEq, Prod.mk.injEq] at h
            obtain ⟨h1, -⟩ := h
            subst h1
            cases p' with
            | nil => simp [FNode.find]
            | cons pm pt =>
                by_cases hpm : pm = nm
                · subst hpm
                  simp only [FNode.find, hl] at hp
                  exact absurd rfl hp
                · simp only [FNode.find] at hp
                  simp only [FNode.find,
                    lookupChild_append_ne children nm pm sub hpm]
                  exact hp

theorem mkdirAllAux_dirs (p : FPath) : ∀ (root root' : FNode) (next next' : Nat)
    (whole : FPath), mkdirAllAux root p next whole = .ok (root', next') →
    ∀ (p' : FPath) (di : Nat) (dch : List (String × FNode)),
      root.find p' = some (.dir di dch) →
      ∃ di' dch', root'.find p' = some (.dir di' dch') := by
  induction p with
  | nil =>
      intro root root' next next' whole h p' di dch hp
      match root with
      | .file .. => simp [mkdirAllAux] at h
      | .dir i ch =>
          simp only [mkdirAllAux, Except.ok.injEq, Prod.mk.injEq] at h
          obtain ⟨h1, -⟩ := h
          subst h1
          exact ⟨di, dch, hp⟩
  | cons nm rest ih =>
      intro root root' next next' whole h p' di dch hp
      match root with
      | .file .. => simp [mkdirAllAux] at h
      | .dir ino children =>
          simp only [mkdirAllAux] at h
          split at h
          · rename_i c hl
            split at h
            · rename_i c2 next2 hrec
              simp only [Except.ok.injEq, Prod.mk.injEq] at h
              obtain ⟨h1, -⟩ := h
              subst h1
              cases p' with
              | nil => exact ⟨ino, _, rfl⟩
              | cons pm pt =>
                  by_cases hpm : pm = nm
                  · subst hpm
                    simp only [FNode.find, hl] at hp
                    simp only [FNode.find,
                      lookupChild_setChild_self children pm c2 (by simp [hl])]
                    exact ih c c2 next next2 whole hrec pt di dch hp
                  · simp only [FNode.find] at hp
                    simp only [FNode.find,
                      lookupChild_setChild_ne children nm pm c2 hpm]
                    exact ⟨di, dch, hp⟩
            · cases h
          · rename_i hl
            rcases hfc : freshChain rest next with ⟨sub, next2⟩
            rw [hfc] at h
            simp only [Except.ok.injEq, Prod.mk.injEq] at h
            obtain ⟨h1, -⟩ := h
            subst h1
            cases p' with
            | nil => exact ⟨ino, _, rfl⟩
            | cons pm pt =>
                by_cases hpm : pm = nm
                · subst hpm
                  simp only [FNode.find, hl] at hp
                  exact Option.noConfusion hp
                · simp only [FNode.find] at hp
                  simp only [FNode.find,
                    lookupChild_append_ne children nm pm sub hpm]
                  exact ⟨di, dch, hp⟩

/-! ### The effect of one walk action -/

/-- The effect bundle of one filesystem write confined to `region`:
unrelated paths are untouched, nothing disappears, directories stay
directories. -/
structure Step (region : FPath) (fs fs' : Fs) : Prop where
  frame : ∀ p : FPath, ¬ PathPre p region → ¬ PathPre region p →
    fs'.root.find p = fs.root.find p
  presence : ∀ p : FPath, fs.root.find p ≠ none → fs'.root.find p ≠ none
  dirs : ∀ (p : FPath) (di : Nat) (dch : List (String × FNode)),
    fs.root.find p = some (.dir di dch) → ∃ di' dch', fs'.root.find p = some (.dir di' dch')

theorem step_refl (region : FPath) (fs : Fs) : Step region fs fs :=
  ⟨fun _ _ _ => rfl, fun _ h => h, fun _ di dch h => ⟨di, dch, h⟩⟩

theorem step_of_eq {region : FPath} {fs fs' : Fs} (h : fs' = fs) : Step region fs fs' := by
  subst h
  exact step_refl region fs'

theorem step_trans {region : FPath} {fs1 fs2 fs3 : Fs}
    (h1 : Step region fs1 fs2) (h2 : Step region fs2 fs3) : Step region fs1 fs3 := by
  refine ⟨?_, ?_, ?_⟩
  · intro p hp1 hp2
    rw [h2.frame p hp1 hp2, h1.frame p hp1 hp2]
  · intro p hp
    exact h2.presence p (h1.presence p hp)
  · intro p di dch hp
    obtain ⟨di2, dch2, h⟩ := h1.dirs p di dch hp
    exact h2.dirs p di2 dch2 h

/-- A write confined to a deeper region is also confined to any
enclosing region. -/
theorem step_widen {r r' : FPath} {fs fs' : Fs} (hpre : PathPre r r')
    (h : Step r' fs fs') : Step r fs fs' := by
  refine ⟨?_, h.presence, h.dirs⟩
  intro p hp1 hp2
  refine h.frame p (fun hc => ?_) (fun hc => hp2 (pathPre_trans hpre hc))
  rcases pathPre_comparable hc hpre with hd | hd
  · exact hp1 hd
  · exact hp2 hd

/-! ### createDir and copySrcToDest as Steps -/

theorem createDir_step {P : FPath} {cmd : Command} {fs fs' : Fs}
    (h : createDir P cmd fs = .ok fs') : Step P fs fs' := by
  unfold createDir at h
  split at h
  · simp only [Except.ok.injEq] at h
    exact step_of_eq h.symm
  · unfold mkdirAll at h
    split at h
    · rename_i r n haux
      simp only [Except.ok.injEq] at h
      subst h
      exact ⟨fun p hp1 hp2 => mkdirAllAux_frame P fs.root r fs.nextIno n P haux p hp1 hp2,
        fun p hp => mkdirAllAux_presence P fs.root r fs.nextIno n P haux p hp,
        fun p di dch hp => mkdirAllAux_dirs P fs.root r fs.nextIno n P haux p di dch hp⟩
    · cases h

theorem createDir_dirAt {P : FPath} {cmd : Command} {fs fs' : Fs}
    (hdry : cmd.dryRun = false) (h : createDir P cmd fs = .ok fs') :
    ∃ i ch, fs'.root.find P = some (.dir i ch) := by
  unfold createDir at h
  rw [if_neg (by simp [hdry] : ¬cmd.dryRun = true)] at h
  unfold mkdirAll at h
  split at h
  · rename_i r n haux
    simp only [Except.ok.injEq] at h
    subst h
    exact mkdirAllAux_dirAt P fs.root r fs.nextIno n P haux
  · cases h

theorem createEmpty_step {fs : Fs} {dst : FPath} {fs1 : Fs} {ino : Nat}
    (h : createEmpty fs dst = .ok (fs1, ino)) :
    Step dst fs fs1 ∧ FileOrNone fs1.root dst := by
  unfold createEmpty at h
  split at h
  · cases h
  · rename_i c m t a i hf
    split at h
    · rename_i r hset
      simp only [Except.ok.injEq, Prod.mk.injEq] at h
      obtain ⟨h1, h2⟩ := h
      subst h1
      have hg : FileOrNone fs.root dst := Or.inr ⟨c, m, t, a, i, hf⟩
      refine ⟨⟨fun p hp1 hp2 => setPath_frame dst fs.root r _ hset p hp1 hp2,
        fun p hp => setPath_presence dst fs.root r _ hg hset p hp,
        fun p di dch hp => setPath_dirs dst fs.root r _ hg hset p di dch hp⟩, ?_⟩
      exact Or.inr ⟨"", m, t, a, i, find_setPath_self dst fs.root r _ hset⟩
    · cases h
  · rename_i hf
    split at h
    · rename_i r hset
      simp only [Except.ok.injEq, Prod.mk.injEq] at h
      obtain ⟨h1, h2⟩ := h
      subst h1
      have hg : FileOrNone fs.root dst := Or.inl hf
      refine ⟨⟨fun p hp1 hp2 => setPath_frame dst fs.root r _ hset p hp1 hp2,
        fun p hp => setPath_presence dst fs.root r _ hg hset p hp,
        fun p di dch hp => setPath_dirs dst fs.root r _ hg hset p di dch hp⟩, ?_⟩
      exact Or.inr ⟨"", 0o666, 0, 0, fs.nextIno, find_setPath_self dst fs.root r _ hset⟩
    · cases h

theorem finishCopy_step {src' dst : FPath} {info : FileInfo} {ino : Nat}
    {fs1 fs2 : Fs} {r : Option Err} (hg : FileOrNone fs1.root dst)
    (h : finishCopy src' dst info ino fs1 = (r, fs2)) : Step dst fs1 fs2 := by
  unfold finishCopy at h
  split at h
  · rename_i content m0 t0 a0 i0 hfind
    split at h
    · rename_i r2 hset
      simp only [Prod.mk.injEq] at h
      obtain ⟨-, h2⟩ := h
      subst h2
      exact ⟨fun p hp1 hp2 => setPath_frame dst fs1.root r2 _ hset p hp1 hp2,
        fun p hp => setPath_presence dst fs1.root r2 _ hg hset p hp,
        fun p di dch hp => setPath_dirs dst fs1.root r2 _ hg hset p di dch hp⟩
    · exact step_of_eq (congrArg Prod.snd h).symm
  · exact step_of_eq (congrArg Prod.snd h).symm

theorem finishCopy_content {src' dst : FPath} {info : FileInfo} {ino : Nat}
    {fs1 fs2 : Fs} {c : String} {m t a i : Nat}
    (hsrc : fs1.root.find src' = some (.file c m t a i))
    (h : finishCopy src' dst info ino fs1 = (none, fs2)) :
    fs2.root.find dst = some (.file c info.mode info.modTime info.modTime ino) := by
  unfold finishCopy at h
  rw [hsrc] at h
  dsimp only at h
  cases hsp : fs1.root.setPath dst (.file c info.mode info.modTime info.modTime ino) with
  | some r2 =>
      rw [hsp] at h
      dsimp only at h
      injection h with h1 h2
      rw [← h2]
      exact find_setPath_self dst fs1.root r2 _ hsp
  | none =>
      rw [hsp] at h
      dsimp only at h
      exact Option.noConfusion (congrArg Prod.fst h)

/-- Any outcome of `copySrcToDest` writes only at the destination path. -/
theorem copySrcToDest_step {src' dst : FPath} {info : FileInfo} {cmd : Command}
    {fs fs' : Fs} {r : Option Err}
    (h : copySrcToDest src' dst info cmd fs = (r, fs')) : Step dst fs fs' := by
  unfold copySrcToDest at h
  split at h
  · simp only [Prod.mk.injEq] at h
    exact step_of_eq h.2.symm
  · split at h
    · simp only [Prod.mk.injEq] at h
      exact step_of_eq h.2.symm
    · split at h
      · simp only [Prod.mk.injEq] at h
        exact step_of_eq h.2.symm
      all_goals (
        rename_i hce
        obtain ⟨hstep1, hg⟩ := createEmpty_step hce
        exact step_trans hstep1 (finishCopy_step hg h))

/-- A successful non-dry-run `copySrcToDest` whose source is a regular
file unrelated to the destination path copies exactly the source's
bytes, stamping them with the captured metadata. -/
theorem copySrcToDest_content {src' dst : FPath} {info : FileInfo} {cmd : Command}
    {fs fs' : Fs} {c : String} {m t a i : Nat} (hdry : cmd.dryRun = false)
    (hsrc : fs.root.find src' = some (.file c m t a i))
    (hnr1 : ¬ PathPre src' dst) (hnr2 : ¬ PathPre dst src')
    (h : copySrcToDest src' dst info cmd fs = (none, fs')) :
    ∃ i', fs'.root.find dst = some (.file c info.mode info.modTime info.modTime i') := by
  unfold copySrcToDest at h
  rw [if_neg (by simp [hdry] : ¬cmd.dryRun = true)] at h
  rw [if_neg (by simp [hsrc] : ¬(fs.root.find src').isNone = true)] at h
  split at h
  · cases h
  all_goals (
    rename_i hce
    obtain ⟨hstep1, hg⟩ := createEmpty_step hce
    exact ⟨_, finishCopy_content ((hstep1.frame src' hnr1 hnr2).trans hsrc) h⟩)

/-! ### Helpers for the walk induction -/

/-- With `interactive` unset, the overwrite decision either Proceeds
without touching the input or aborts with the conflict error: no Skip is
possible. -/
theorem shouldOverwrite_noninteractive (path : FPath) (info : Option FileInfo)
    (cmd : Command) (input : List String) (hint : cmd.interactive = false) :
    shouldOverwrite path info cmd input = (true, none, input) ∨
    shouldOverwrite path info cmd input =
      (false, some (.alreadyExists path), input) := by
  cases info with
  | none => exact Or.inl rfl
  | some ti =>
      by_cases hd : ti.isDir = true
      · exact Or.inl (by simp [shouldOverwrite, hd])
      · by_cases hf : cmd.force = true
        · exact Or.inl (by simp [shouldOverwrite, hd, hf])
        · refine Or.inr ?_
          simp only [Bool.not_eq_true] at hd hf
          simp [shouldOverwrite, hd, hf, hint]

theorem pathPre_append_left (D x y : FPath) :
    PathPre (D ++ x) (D ++ y) ↔ PathPre x y := by
  constructor
  · rintro ⟨r, hr⟩
    rw [List.append_assoc] at hr
    exact ⟨r, List.append_cancel_left hr⟩
  · rintro ⟨r, hr⟩
    exact ⟨r, by rw [List.append_assoc, hr]⟩

/-- Paths unrelated to a region are unrelated to anything deeper inside
the region. -/
theorem notRel_deeper {R p : FPath} (h1 : ¬ PathPre p R) (h2 : ¬ PathPre R p)
    (x : FPath) : ¬ PathPre p (R ++ x) ∧ ¬ PathPre (R ++ x) p := by
  constructor
  · intro hc
    rcases pathPre_comparable hc (pathPre_append R x) with hd | hd
    · exact h1 hd
    · exact h2 hd
  · intro hc
    exact h2 (pathPre_trans (pathPre_append R x) hc)

/-- Subtrees rooted at differently named siblings are unrelated. -/
theorem notRel_sibling {D : FPath} {nm nm' : String} {q : FPath} (hne : nm' ≠ nm) :
    ¬ PathPre (D ++ [nm']) (D ++ [nm] ++ q) ∧
    ¬ PathPre (D ++ [nm] ++ q) (D ++ [nm']) := by
  constructor
  · intro h
    rw [List.append_assoc] at h
    have := (pathPre_append_left D [nm'] ([nm] ++ q)).1 h
    simp only [List.cons_append, List.nil_append] at this
    exact hne (pathPre_cons_iff.1 this).1
  · intro h
    rw [List.append_assoc] at h
    have := (pathPre_append_left D ([nm] ++ q) [nm']).1 h
    simp only [List.cons_append, List.nil_append] at this
    exact hne ((pathPre_cons_iff.1 this).1).symm

/-- The source root is unrelated to every path under the destination
root, in both directions, when the two roots are unrelated. -/
theorem notRel_root {src dest : FPath} (hsd : ¬ PathPre src dest)
    (hds : ¬ PathPre dest src) (x : FPath) :
    ¬ PathPre src (dest ++ x) ∧ ¬ PathPre (dest ++ x) src := by
  constructor
  · intro h
    have h2 : PathPre (src ++ []) (dest ++ x) := by simpa using h
    exact notRel_of_disjoint hsd hds [] x h2
  · intro h
    have h2 : PathPre (dest ++ x) (src ++ []) := by simpa using h
    exact notRel_of_disjoint hds hsd x [] h2


/-! ### The walk preserves and copies: induction over the source tree,
bounded by node size to sidestep the nested recursion -/

/-- The conclusions of a successful `walkNode` on a snapshot node. -/
def WalkNodeOk (cmd : Command) (src dest : FPath) (srcNode : FNode)
    (erel : FPath) (node : FNode) (fs : Fs) (out : WalkOut) : Prop :=
  Step (dest ++ erel) fs out.fs ∧
  out.fs.root.find src = some srcNode ∧
  (∀ (q : FPath) (mq : FNode), node.find q = some mq →
    out.fs.root.find (dest ++ erel ++ q) ≠ none) ∧
  (∀ (q : FPath) (c3 : String) (mm tt aa ii : Nat),
    node.find q = some (.file c3 mm tt aa ii) →
    ∃ m2 t2 a2 i2, out.fs.root.find (dest ++ erel ++ q) =
      some (.file c3 m2 t2 a2 i2))

/-- The conclusions of a successful `walkSiblings` over a child list. -/
def WalkSibsOk (cmd : Command) (src dest : FPath) (srcNode : FNode)
    (rel : FPath) (children : List (String × FNode)) (fs : Fs) (out : WalkOut) : Prop :=
  (∀ p : FPath, (∀ pr ∈ children,
      ¬ PathPre p (dest ++ rel ++ [pr.1]) ∧ ¬ PathPre (dest ++ rel ++ [pr.1]) p) →
    out.fs.root.find p = fs.root.find p) ∧
  (∀ p : FPath, fs.root.find p ≠ none → out.fs.root.find p ≠ none) ∧
  (∀ (p : FPath) (di : Nat) (dch : List (String × FNode)),
    fs.root.find p = some (.dir di dch) →
    ∃ di2 dch2, out.fs.root.find p = some (.dir di2 dch2)) ∧
  out.fs.root.find src = some srcNode ∧
  (∀ pr ∈ children, ∀ (q : FPath) (mq : FNode), pr.2.find q = some mq →
    out.fs.root.find (dest ++ rel ++ [pr.1] ++ q) ≠ none) ∧
  (∀ pr ∈ children, ∀ (q : FPath) (c3 : String) (mm tt aa ii : Nat),
    pr.2.find q = some (.file c3 mm tt aa ii) →
    ∃ m2 t2 a2 i2, out.fs.root.find (dest ++ rel ++ [pr.1] ++ q) =
      some (.file c3 m2 t2 a2 i2))

/-- The walk induction, bounded by the size of the visited subtree: a
successful non-interactive, non-dry-run walk entry (or sibling loop)
over a snapshot of the untouched source subtree writes only under its
destination region, keeps the source intact and every existing entry
present, and materialises the snapshot subtree (with its file contents)
under the destination. -/
theorem walk_ok (cmd : Command) (src dest : FPath) (srcNode : FNode)
    (hint : cmd.interactive = false) (hdry : cmd.dryRun = false)
    (hsd : ¬ PathPre src dest) (hds : ¬ PathPre dest src)
    (hwf : nodeWF srcNode = true) :
    ∀ n : Nat,
    ((∀ (erel : FPath) (node : FNode) (fs : Fs) (input : List String) (out : WalkOut),
        sizeOf node ≤ n →
        srcNode.find erel = some node →
        fs.root.find src = some srcNode →
        walkNode cmd src dest erel node fs input = out →
        out.err = none →
        WalkNodeOk cmd src dest srcNode erel node fs out) ∧
     (∀ (rel : FPath) (children : List (String × FNode)) (fs : Fs)
        (input : List String) (out : WalkOut),
        sizeOf children ≤ n →
        (∀ pr ∈ children, srcNode.find (rel ++ [pr.1]) = some pr.2) →
        nodupKeys children = true →
        fs.root.find src = some srcNode →
        walkSiblings cmd src dest rel children fs input = out →
        out.err = none →
        WalkSibsOk cmd src dest srcNode rel children fs out)) := by
  intro n
  induction n with
  | zero =>
      constructor
      · intro erel node fs input out hsz
        exfalso
        cases node <;> simp at hsz
      · intro rel children fs input out hsz
        exfalso
        cases children <;> simp at hsz
  | succ n ihn =>
      have partN : ∀ (erel : FPath) (node : FNode) (fs : Fs) (input : List String)
          (out : WalkOut),
          sizeOf node ≤ n + 1 →
          srcNode.find erel = some node →
          fs.root.find src = some srcNode →
          walkNode cmd src dest erel node fs input = out →
          out.err = none →
          WalkNodeOk cmd src dest srcNode erel node fs out := by
        intro erel node fs input out hsz hsnap hI hrun herr
        obtain ⟨oerr, ofs, oinput, otr⟩ := out
        simp only at herr
        subst herr
        unfold walkNode at hrun
        rcases hso : shouldOverwrite (dest ++ erel) (stat fs (dest ++ erel)) cmd input with
          ⟨should, oe, input2⟩
        rw [hso] at hrun
        cases oe with
        | some e =>
            dsimp only at hrun
            simp at hrun
        | none =>
            rcases shouldOverwrite_noninteractive (dest ++ erel) (stat fs (dest ++ erel))
                cmd input hint with hval | hval
            · have hcomp := hso.symm.trans hval
              injection hcomp with h1 h23
              injection h23 with h2 h3
              subst h1
              subst h3
              dsimp only at hrun
              simp only [Bool.not_true] at hrun
              rw [if_neg Bool.false_ne_true] at hrun
              cases node with
              | dir i0 children =>
                  dsimp only at hrun
                  cases hcd : createDir (dest ++ erel) cmd fs with
                  | error e =>
                      rw [hcd] at hrun
                      simp at hrun
                  | ok fs1 =>
                      rw [hcd] at hrun
                      dsimp only at hrun
                      have hstepD : Step (dest ++ erel) fs fs1 := createDir_step hcd
                      have hnr := notRel_root hsd hds erel
                      have hI1 : fs1.root.find src = some srcNode :=
                        (hstepD.frame src hnr.1 hnr.2).trans hI
                      have hwfn : nodeWF (.dir i0 children) = true :=
                        find_WF erel srcNode _ hwf hsnap
                      simp only [nodeWF, Bool.and_eq_true] at hwfn
                      have hchild : ∀ pr ∈ children,
                          srcNode.find (erel ++ [pr.1]) = some pr.2 := by
                        intro pr hm
                        obtain ⟨nm2, c2⟩ := pr
                        rw [find_append erel [nm2] srcNode, hsnap]
                        simp [FNode.find, lookupChild_of_nodup_mem hwfn.1 hm]
                      have hszc : sizeOf children ≤ n := by
                        have hspec := FNode.dir.sizeOf_spec i0 children
                        omega
                      have hR := ihn.2 erel children fs1 _ ⟨none, ofs, oinput, otr⟩
                        hszc hchild hwfn.1 hI1 hrun rfl
                      obtain ⟨A2, B2, C2, D2, E2, F2⟩ := hR
                      refine ⟨?_, D2, ?_, ?_⟩
                      · refine step_trans hstepD ⟨?_, B2, C2⟩
                        intro p hp1 hp2
                        refine A2 p ?_
                        intro pr hm
                        exact notRel_deeper hp1 hp2 [pr.1]
                      · intro q mq hq
                        cases q with
                        | nil =>
                            obtain ⟨di, dch, hdir⟩ := createDir_dirAt hdry hcd
                            have hne := B2 (dest ++ erel) (by simp [hdir])
                            simpa using hne
                        | cons pm qt =>
                            simp only [FNode.find] at hq
                            cases hl : lookupChild children pm with
                            | none => rw [hl] at hq; cases hq
                            | some cpm =>
                                rw [hl] at hq
                                have hm2 : (pm, cpm) ∈ children := lookupChild_mem hl
                                have hE := E2 (pm, cpm) hm2 qt mq hq
                                simpa [List.append_assoc] using hE
                      · intro q c3 mm tt aa ii hq
                        cases q with
                        | nil =>
                            simp [FNode.find] at hq
                        | cons pm qt =>
                            simp only [FNode.find] at hq
                            cases hl : lookupChild children pm with
                            | none => rw [hl] at hq; cases hq
                            | some cpm =>
                                rw [hl] at hq
                                have hm2 : (pm, cpm) ∈ children := lookupChild_mem hl
                                obtain ⟨m2, t2, a2, i2, hfile⟩ :=
                                  F2 (pm, cpm) hm2 qt c3 mm tt aa ii hq
                                refine ⟨m2, t2, a2, i2, ?_⟩
                                simpa [List.append_assoc] using hfile
              | file c m t a i =>
                  dsimp only at hrun
                  rcases hcp : copySrcToDest (src ++ erel) (dest ++ erel)
                      (FNode.toFileInfo (.file c m t a i)) cmd fs with ⟨r, fs1⟩
                  rw [hcp] at hrun
                  dsimp only at hrun
                  injection hrun with e1 e2 e3 e4
                  subst e2
                  subst e1
                  have hstepC : Step (dest ++ erel) fs fs1 := copySrcToDest_step hcp
                  have hnr := notRel_root hsd hds erel
                  have hI1 : fs1.root.find src = some srcNode :=
                    (hstepC.frame src hnr.1 hnr.2).trans hI
                  have hsrcLive : fs.root.find (src ++ erel) =
                      some (.file c m t a i) := by
                    rw [find_append src erel fs.root, hI]
                    simpa using hsnap
                  obtain ⟨i2, hdst⟩ := copySrcToDest_content hdry hsrcLive
                    (notRel_of_disjoint hsd hds erel erel)
                    (notRel_of_disjoint hds hsd erel erel) hcp
                  refine ⟨hstepC, hI1, ?_, ?_⟩
                  · intro q mq hq
                    cases q with
                    | nil => simp [hdst]
                    | cons _ _ => simp [FNode.find] at hq
                  · intro q c3 mm tt aa ii hq
                    cases q with
                    | nil =>
                        simp only [FNode.find, Option.some.injEq] at hq
                        cases hq
                        exact ⟨_, _, _, _, by simpa using hdst⟩
                    | cons _ _ => simp [FNode.find] at hq
            · have hcomp := hso.symm.trans hval
              injection hcomp with h1 h23
              injection h23 with h2 h3
              exact Option.noConfusion h2
      refine ⟨partN, ?_⟩
      intro rel children fs input out hsz hchild hnd hI hrun herr
      cases children with
      | nil =>
          unfold walkSiblings at hrun
          cases hrun
          refine ⟨fun p _ => rfl, fun p hp => hp, fun p di dch hp => ⟨di, dch, hp⟩,
            hI, ?_, ?_⟩
          · intro pr hm
            simp at hm
          · intro pr hm
            simp at hm
      | cons hd rest =>
          obtain ⟨nm, c⟩ := hd
          unfold walkSiblings at hrun
          rcases hw : walkNode cmd src dest (rel ++ [nm]) c fs input with
            ⟨err1, fs1, input1, tr1⟩
          rw [hw] at hrun
          cases err1 with
          | some e =>
              dsimp only at hrun
              obtain ⟨oerr, ofs, oinput, otr⟩ := out
              injection hrun with e1 e2 e3 e4
              rw [← e1] at herr
              simp at herr
          | none =>
              dsimp only at hrun
              rcases hs : walkSiblings cmd src dest rel rest fs1 input1 with
                ⟨err2, fs2, input2, tr2⟩
              rw [hs] at hrun
              dsimp only at hrun
              obtain ⟨oerr, ofs, oinput, otr⟩ := out
              injection hrun with e1 e2 e3 e4
              subst e2
              subst e3
              subst e4
              rw [← e1] at herr
              simp only at herr
              subst herr
              simp only [nodupKeys, Bool.and_eq_true, Bool.not_eq_true'] at hnd
              obtain ⟨hnd1, hnd2⟩ := hnd
              have hsnap1 : srcNode.find (rel ++ [nm]) = some c :=
                hchild (nm, c) (List.mem_cons_self _ _)
              have hszc : sizeOf c ≤ n + 1 := by
                have hsp1 := List.cons.sizeOf_spec (nm, c) rest
                have hsp2 := Prod.mk.sizeOf_spec nm c
                omega
              have hszr : sizeOf rest ≤ n := by
                have hsp1 := List.cons.sizeOf_spec (nm, c) rest
                omega
              have hN := partN (rel ++ [nm]) c fs _ ⟨none, fs1, input1, tr1⟩
                hszc hsnap1 hI hw rfl
              obtain ⟨NStep, NI, Ncov, Ncon⟩ := hN
              have hR := ihn.2 rel rest fs1 _ ⟨none, fs2, input2, tr2⟩
                hszr (fun pr hm => hchild pr (List.mem_cons_of_mem _ hm)) hnd2 NI hs rfl
              obtain ⟨A2, B2, C2, D2, E2, F2⟩ := hR
              have hassoc : dest ++ (rel ++ [nm]) = dest ++ rel ++ [nm] :=
                (List.append_assoc dest rel [nm]).symm
              refine ⟨?_, ?_, ?_, D2, ?_, ?_⟩
              · intro p hp
                have hpHead := hp (nm, c) (List.mem_cons_self _ _)
                have hHead : fs1.root.find p = fs.root.find p := by
                  refine NStep.frame p ?_ ?_
                  · rw [hassoc]; exact hpHead.1
                  · rw [hassoc]; exact hpHead.2
                have hRest : fs2.root.find p = fs1.root.find p :=
                  A2 p (fun pr hm => hp pr (List.mem_cons_of_mem _ hm))
                rw [hRest, hHead]
              · intro p hp
                exact B2 p (NStep.presence p hp)
              · intro p di dch hp
                obtain ⟨di2, dch2, h2⟩ := NStep.dirs p di dch hp
                exact C2 p di2 dch2 h2
              · intro pr hm q mq hq
                rcases List.mem_cons.1 hm with he | hmR
                · subst he
                  have h1 := Ncov q mq hq
                  rw [hassoc] at h1
                  exact B2 _ h1
                · exact E2 pr hmR q mq hq
              · intro pr hm q c3 mm tt aa ii hq
                rcases List.mem_cons.1 hm with he | hmR
                · subst he
                  obtain ⟨m2, t2, a2, i2, hfile⟩ := Ncon q c3 mm tt aa ii hq
                  rw [hassoc] at hfile
                  have hpath : ∀ pr2 ∈ rest,
                      ¬ PathPre (dest ++ rel ++ [nm] ++ q) (dest ++ rel ++ [pr2.1]) ∧
                      ¬ PathPre (dest ++ rel ++ [pr2.1]) (dest ++ rel ++ [nm] ++ q) := by
                    intro pr2 hm2
                    obtain ⟨nm2, c2⟩ := pr2
                    have hne : nm2 ≠ nm := by
                      intro he2
                      subst he2
                      have hsome := lookupChild_isSome_of_mem hm2
                      rw [hnd1] at hsome
                      cases hsome
                    have hns := @notRel_sibling (dest ++ rel) nm nm2 q hne
                    exact ⟨hns.2, hns.1⟩
                  have hpres := A2 _ hpath
                  exact ⟨m2, t2, a2, i2, hpres.trans hfile⟩
                · exact F2 pr hmR q c3 mm tt aa ii hq

/-! ### C1: recursive directory copy is a superset-merge with content
round-trip -/

/-- The configuration of a recursive, non-interactive, non-dry-run copy. -/
def cmdRec : Command := ⟨true, true, false, false, false, false⟩

/-- The recursive configuration with dry-run enabled. -/
def cmdDryRec : Command := ⟨true, true, false, false, false, true⟩

/-- A filesystem with a source directory `s` holding one file and an
empty destination directory `t`. -/
def fsC1 : Fs :=
  ⟨.dir 1 [("s", .dir 2 [("f", .file "hello" 420 7 7 3)]), ("t", .dir 4 [])], 10⟩

/-- C1 counterexample: with the dry-run flag, `copyDirectory` returns Ok
yet creates no destination entry for the source's file `f`, so "when
copyDirectory returns Ok the destination subtree contains an entry at
every relative path of the source subtree" fails as stated — Ok is also
returned when nothing at all is copied. -/
theorem copyDirectory_dryrun_cex :
    (copyDirectory cmdDryRec ["s"] ["t"] ⟨true, 493, 7, 4⟩ fsC1 []).1 = none ∧
    fsC1.root.find ["s", "f"] = some (.file "hello" 420 7 7 3) ∧
    ((copyDirectory cmdDryRec ["s"] ["t"] ⟨true, 493, 7, 4⟩ fsC1 []).2.1.root.find
      (["t"] ++ ["f"])) = none :=
  ⟨rfl, rfl, rfl⟩

/-- C1 (amended): with dry-run off and interactive off, for a source
directory snapshot not nested with the destination root, a
`copyDirectory` run that returns Ok leaves a destination subtree holding
an entry at every relative path of the source snapshot, preserves every
entry that existed anywhere beforehand (superset-merge), and places each
source file's exact byte content at its destination path. -/
theorem copyDirectory_recursive_merge (cmd : Command) (src dest : FPath)
    (destInfo : FileInfo) (fs : Fs) (input : List String) (srcNode : FNode)
    (out : Option Err × Fs × List String)
    (hdry : cmd.dryRun = false) (hint : cmd.interactive = false)
    (hsd : isPref src dest = false) (hds : isPref dest src = false)
    (hsnap : fs.root.find src = some srcNode)
    (hwf : nodeWF srcNode = true)
    (hdest : fs.root.find dest ≠ none)
    (hrun : copyDirectory cmd src dest destInfo fs input = out)
    (hok : out.1 = none) :
    (∀ (q : FPath) (mq : FNode), srcNode.find q = some mq →
      out.2.1.root.find (dest ++ q) ≠ none) ∧
    (∀ p : FPath, fs.root.find p ≠ none → out.2.1.root.find p ≠ none) ∧
    (∀ (q : FPath) (c : String) (mm tt aa ii : Nat), q ≠ [] →
      srcNode.find q = some (.file c mm tt aa ii) →
      ∃ m2 t2 a2 i2, out.2.1.root.find (dest ++ q) =
        some (.file c m2 t2 a2 i2)) := by
  have hsd' : ¬ PathPre src dest := by
    intro h
    have h2 := (isPref_iff src dest).2 h
    rw [hsd] at h2
    cases h2
  have hds' : ¬ PathPre dest src := by
    intro h
    have h2 := (isPref_iff dest src).2 h
    rw [hds] at h2
    cases h2
  rcases hO : copyDirectoryTr cmd src dest destInfo fs input with ⟨oerr, ofs, oinput, otr⟩
  have hout : out = (oerr, ofs, oinput) := by
    rw [← hrun]
    simp [copyDirectory, hO]
  subst hout
  simp only at hok
  subst hok
  unfold copyDirectoryTr at hO
  split at hO
  · exact absurd (congrArg WalkOut.err hO) (by simp)
  · split at hO
    · exact absurd (congrArg WalkOut.err hO) (by simp)
    · rw [hsnap] at hO
      cases srcNode with
      | file c m t a i =>
          dsimp only at hO
          injection hO with e1 e2 e3 e4
          subst e2
          refine ⟨?_, fun p hp => hp, ?_⟩
          · intro q mq hq
            cases q with
            | nil => simpa using hdest
            | cons nm qt => simp [FNode.find] at hq
          · intro q c3 mm tt aa ii hne hq
            cases q with
            | nil => exact absurd rfl hne
            | cons nm qt => simp [FNode.find] at hq
      | dir i0 children =>
          dsimp only at hO
          have hwf2 := hwf
          simp only [nodeWF, Bool.and_eq_true] at hwf2
          have hchild : ∀ pr ∈ children,
              (FNode.dir i0 children).find ([] ++ [pr.1]) = some pr.2 := by
            intro pr hm
            obtain ⟨nm2, c2⟩ := pr
            simp [FNode.find, lookupChild_of_nodup_mem hwf2.1 hm]
          have hR := (walk_ok cmd src dest (.dir i0 children) hint hdry hsd' hds' hwf
              (sizeOf children)).2 [] children fs input ⟨none, ofs, oinput, otr⟩
              (le_refl _) hchild hwf2.1 hsnap hO rfl
          obtain ⟨A2, B2, C2, D2, E2, F2⟩ := hR
          refine ⟨?_, ?_, ?_⟩
          · intro q mq hq
            cases q with
            | nil =>
                have hb := B2 dest hdest
                simpa using hb
            | cons nm qt =>
                simp only [FNode.find] at hq
                cases hl : lookupChild children nm with
                | none => rw [hl] at hq; cases hq
                | some cnm =>
                    rw [hl] at hq
                    have hm := lookupChild_mem hl
                    have hE := E2 (nm, cnm) hm qt mq hq
                    simpa using hE
          · intro p hp
            exact B2 p hp
          · intro q c3 mm tt aa ii hne hq
            cases q with
            | nil => exact absurd rfl hne
            | cons nm qt =>
                simp only [FNode.find] at hq
                cases hl : lookupChild children nm with
                | none => rw [hl] at hq; cases hq
                | some cnm =>
                    rw [hl] at hq
                    have hm := lookupChild_mem hl
                    obtain ⟨m2, t2, a2, i2, hf⟩ := F2 (nm, cnm) hm qt c3 mm tt aa ii hq
                    exact ⟨m2, t2, a2, i2, by simpa using hf⟩

/-- Witness for C1 (amended): the concrete recursive copy of `s` into
`t` covers the source's relative paths, preserves all pre-existing
entries, and reproduces the file content byte for byte. -/
theorem copyDirectory_recursive_merge_witness :
    (∀ (q : FPath) (mq : FNode),
      (FNode.dir 2 [("f", .file "hello" 420 7 7 3)]).find q = some mq →
      ((copyDirectory cmdRec ["s"] ["t"] ⟨true, 493, 7, 4⟩ fsC1 []).2.1.root.find
        (["t"] ++ q)) ≠ none) ∧
    (∀ p : FPath, fsC1.root.find p ≠ none →
      ((copyDirectory cmdRec ["s"] ["t"] ⟨true, 493, 7, 4⟩ fsC1 []).2.1.root.find p) ≠
        none) ∧
    (∀ (q : FPath) (c : String) (mm tt aa ii : Nat), q ≠ [] →
      (FNode.dir 2 [("f", .file "hello" 420 7 7 3)]).find q =
        some (.file c mm tt aa ii) →
      ∃ m2 t2 a2 i2,
        ((copyDirectory cmdRec ["s"] ["t"] ⟨true, 493, 7, 4⟩ fsC1 []).2.1.root.find
          (["t"] ++ q)) = some (.file c m2 t2 a2 i2)) :=
  copyDirectory_recursive_merge cmdRec ["s"] ["t"] ⟨true, 493, 7, 4⟩ fsC1 []
    (.dir 2 [("f", .file "hello" 420 7 7 3)]) _ rfl rfl rfl rfl rfl rfl
    (fun h => Option.noConfusion h) rfl rfl

/-! ### C9: parent directory exists before each Transfer -/

theorem dropLast_snoc (xs : List String) (x : String) : (xs ++ [x]).dropLast = xs := by
  simp

/-- Trace invariant of the walk: directories present in the filesystem
are never displaced, and — when the walk runs without dry-run and is
entered with the entry's destination parent present as a directory —
every recorded Transfer invocation `(target, fsAt)` in the trace happens
with the target's immediate parent present as a directory in `fsAt`. -/
theorem walk_trace_parent (cmd : Command) (src dest : FPath)
    (hdry : cmd.dryRun = false) :
    ∀ n : Nat,
    ((∀ (erel : FPath) (node : FNode) (fs : Fs) (input : List String) (out : WalkOut),
        sizeOf node ≤ n →
        walkNode cmd src dest erel node fs input = out →
        (∀ (p : FPath) (di : Nat) (dch : List (String × FNode)),
          fs.root.find p = some (.dir di dch) →
          ∃ di2 dch2, out.fs.root.find p = some (.dir di2 dch2)) ∧
        ((∃ di dch, fs.root.find ((dest ++ erel).dropLast) = some (.dir di dch)) →
          ∀ pr ∈ out.trace, ∃ di dch,
            (pr.2).root.find ((pr.1).dropLast) = some (.dir di dch))) ∧
     (∀ (rel : FPath) (children : List (String × FNode)) (fs : Fs)
        (input : List String) (out : WalkOut),
        sizeOf children ≤ n →
        walkSiblings cmd src dest rel children fs input = out →
        (∀ (p : FPath) (di : Nat) (dch : List (String × FNode)),
          fs.root.find p = some (.dir di dch) →
          ∃ di2 dch2, out.fs.root.find p = some (.dir di2 dch2)) ∧
        ((∃ di dch, fs.root.find (dest ++ rel) = some (.dir di dch)) →
          ∀ pr ∈ out.trace, ∃ di dch,
            (pr.2).root.find ((pr.1).dropLast) = some (.dir di dch)))) := by
  intro n
  induction n with
  | zero =>
      constructor
      · intro erel node fs input out hsz
        exfalso
        cases node <;> simp at hsz
      · intro rel children fs input out hsz
        exfalso
        cases children <;> simp at hsz
  | succ n ihn =>
      have partN : ∀ (erel : FPath) (node : FNode) (fs : Fs) (input : List String)
          (out : WalkOut),
          sizeOf node ≤ n + 1 →
          walkNode cmd src dest erel node fs input = out →
          (∀ (p : FPath) (di : Nat) (dch : List (String × FNode)),
            fs.root.find p = some (.dir di dch) →
            ∃ di2 dch2, out.fs.root.find p = some (.dir di2 dch2)) ∧
          ((∃ di dch, fs.root.find ((dest ++ erel).dropLast) = some (.dir di dch)) →
            ∀ pr ∈ out.trace, ∃ di dch,
              (pr.2).root.find ((pr.1).dropLast) = some (.dir di dch)) := by
        intro erel node fs input out hsz hrun
        obtain ⟨oerr, ofs, oinput, otr⟩ := out
        unfold walkNode at hrun
        rcases hso : shouldOverwrite (dest ++ erel) (stat fs (dest ++ erel)) cmd input with
          ⟨should, oe, input2⟩
        rw [hso] at hrun
        cases oe with
        | some e =>
            dsimp only at hrun
            injection hrun with e1 e2 e3 e4
            subst e2
            subst e4
            exact ⟨fun p di dch hp => ⟨di, dch, hp⟩, fun _ pr hm => absurd hm (by simp)⟩
        | none =>
            dsimp only at hrun
            cases should with
            | false =>
                simp only [Bool.not_false, if_true, WalkOut.mk.injEq] at hrun
                obtain ⟨e1, e2, e3, e4⟩ := hrun
                subst e2
                subst e4
                exact ⟨fun p di dch hp => ⟨di, dch, hp⟩, fun _ pr hm => absurd hm (by simp)⟩
            | true =>
                simp only [Bool.not_true] at hrun
                rw [if_neg Bool.false_ne_true] at hrun
                cases node with
                | dir i0 children =>
                    dsimp only at hrun
                    cases hcd : createDir (dest ++ erel) cmd fs with
                    | error e =>
                        rw [hcd] at hrun
                        dsimp only at hrun
                        injection hrun with e1 e2 e3 e4
                        subst e2
                        subst e4
                        exact ⟨fun p di dch hp => ⟨di, dch, hp⟩,
                          fun _ pr hm => absurd hm (by simp)⟩
                    | ok fs1 =>
                        rw [hcd] at hrun
                        dsimp only at hrun
                        have hstep := createDir_step hcd
                        have hdir := createDir_dirAt hdry hcd
                        have hszc : sizeOf children ≤ n := by
                          have hspec := FNode.dir.sizeOf_spec i0 children
                          omega
                        have hR := ihn.2 erel children fs1 input2 ⟨oerr, ofs, oinput, otr⟩
                          hszc hrun
                        refine ⟨?_, fun _ => hR.2 hdir⟩
                        intro p di dch hp
                        obtain ⟨di2, dch2, hp2⟩ := hstep.dirs p di dch hp
                        exact hR.1 p di2 dch2 hp2
                | file c m t a i =>
                    dsimp only at hrun
                    rcases hcp : copySrcToDest (src ++ erel) (dest ++ erel)
                        (FNode.toFileInfo (.file c m t a i)) cmd fs with ⟨r, fs1⟩
                    rw [hcp] at hrun
                    dsimp only at hrun
                    injection hrun with e1 e2 e3 e4
                    subst e2
                    subst e4
                    refine ⟨(copySrcToDest_step hcp).dirs, ?_⟩
                    intro hpar pr hm
                    simp only [List.mem_singleton] at hm
                    subst hm
                    exact hpar
      refine ⟨partN, ?_⟩
      intro rel children fs input out hsz hrun
      obtain ⟨oerr, ofs, oinput, otr⟩ := out
      cases children with
      | nil =>
          unfold walkSiblings at hrun
          injection hrun with e1 e2 e3 e4
          subst e2
          subst e4
          exact ⟨fun p di dch hp => ⟨di, dch, hp⟩, fun _ pr hm => absurd hm (by simp)⟩
      | cons hd rest =>
          obtain ⟨nm, c⟩ := hd
          unfold walkSiblings at hrun
          rcases hw : walkNode cmd src dest (rel ++ [nm]) c fs input with
            ⟨err1, fs1, input1, tr1⟩
          rw [hw] at hrun
          have hszc : sizeOf c ≤ n + 1 := by
            have hsp1 := List.cons.sizeOf_spec (nm, c) rest
            have hsp2 := Prod.mk.sizeOf_spec nm c
            omega
          have hszr : sizeOf rest ≤ n := by
            have hsp1 := List.cons.sizeOf_spec (nm, c) rest
            omega
          have hN := partN (rel ++ [nm]) c fs input ⟨err1, fs1, input1, tr1⟩ hszc hw
          have hpareq : (dest ++ (rel ++ [nm])).dropLast = dest ++ rel := by
            rw [← List.append_assoc]
            exact dropLast_snoc (dest ++ rel) nm
          cases err1 with
          | some e =>
              dsimp only at hrun
              injection hrun with e1 e2 e3 e4
              subst e2
              subst e4
              refine ⟨hN.1, ?_⟩
              intro hpar pr hm
              refine hN.2 ?_ pr hm
              rw [hpareq]
              exact hpar
          | none =>
              dsimp only at hrun
              rcases hs : walkSiblings cmd src dest rel rest fs1 input1 with
                ⟨err2, fs2, input2, tr2⟩
              rw [hs] at hrun
              dsimp only at hrun
              injection hrun with e1 e2 e3 e4
              subst e2
              subst e4
              have hR := ihn.2 rel rest fs1 input1 ⟨err2, fs2, input2, tr2⟩ hszr hs
              refine ⟨?_, ?_⟩
              · intro p di dch hp
                obtain ⟨di2, dch2, hp2⟩ := hN.1 p di dch hp
                exact hR.1 p di2 dch2 hp2
              · intro hpar pr hm
                rcases List.mem_append.1 hm with hm1 | hm2
                · refine hN.2 ?_ pr hm1
                  rw [hpareq]
                  exact hpar
                · refine hR.2 ?_ pr hm2
                  obtain ⟨di, dch, hp⟩ := hpar
                  exact hN.1 (dest ++ rel) di dch hp

/-- A filesystem with a source directory `s` holding a nested
subdirectory with one file, and an empty destination directory `t`. -/
def fsC9 : Fs :=
  ⟨.dir 1 [("s", .dir 2 [("sub", .dir 3 [("g", .file "z" 420 7 7 4)])]),
    ("t", .dir 5 [])], 10⟩

/-- C9 counterexample: under dry-run the walk still reaches the Proceed
decision for the nested file `s/sub/g` and invokes its (dry) Transfer —
recorded in the trace — while the file's immediate destination parent
`t/sub` does not exist at that moment, because `createDir` created
nothing; so "ensures the parent directory exists before invoking the
Transfer" fails as stated. -/
theorem copyDirectory_transfer_parent_dryrun_cex :
    (copyDirectoryTr cmdDryRec ["s"] ["t"] ⟨true, 493, 7, 5⟩ fsC9 []).trace =
      [(["t", "sub", "g"], fsC9)] ∧
    (copyDirectoryTr cmdDryRec ["s"] ["t"] ⟨true, 493, 7, 5⟩ fsC9 []).err = none ∧
    fsC9.root.find (["t", "sub", "g"].dropLast) = none :=
  ⟨rfl, rfl, rfl⟩

/-- C9 (amended): with dry-run off, whenever the walk of `copyDirectory`
reaches a Proceed decision on a file entry and invokes the Transfer for
it (each invocation is recorded in the trace with the filesystem of that
moment), the file's immediate parent directory exists under the
destination at that moment — provided the destination root is a
directory, as `copyDirectory` checked. -/
theorem copyDirectory_transfer_parent (cmd : Command) (src dest : FPath)
    (destInfo : FileInfo) (fs : Fs) (input : List String)
    (hdry : cmd.dryRun = false)
    (hdest : ∃ di dch, fs.root.find dest = some (.dir di dch)) :
    ∀ pr ∈ (copyDirectoryTr cmd src dest destInfo fs input).trace,
      ∃ di dch, (pr.2).root.find ((pr.1).dropLast) = some (.dir di dch) := by
  intro pr hm
  rcases hO : copyDirectoryTr cmd src dest destInfo fs input with ⟨oerr, ofs, oinput, otr⟩
  rw [hO] at hm
  dsimp only at hm
  unfold copyDirectoryTr at hO
  split at hO
  · injection hO with e1 e2 e3 e4
    subst e4
    exact absurd hm (by simp)
  · split at hO
    · injection hO with e1 e2 e3 e4
      subst e4
      exact absurd hm (by simp)
    · split at hO
      · rename_i di0 children heq
        refine (walk_trace_parent cmd src dest hdry (sizeOf children)).2 [] children
          fs input ⟨oerr, ofs, oinput, otr⟩ (le_refl _) hO |>.2 ?_ pr hm
        simpa using hdest
      · injection hO with e1 e2 e3 e4
        subst e4
        exact absurd hm (by simp)
      · injection hO with e1 e2 e3 e4
        subst e4
        exact absurd hm (by simp)

/-- Witness for C9 (amended): in the concrete non-dry-run copy of `s`
into `t`, every recorded Transfer sees its target's parent directory
present. -/
theorem copyDirectory_transfer_parent_witness :
    cmdRec.dryRun = false ∧
    (∀ pr ∈ (copyDirectoryTr cmdRec ["s"] ["t"] ⟨true, 493, 7, 5⟩ fsC9 []).trace,
      ∃ di dch, (pr.2).root.find ((pr.1).dropLast) = some (.dir di dch)) :=
  ⟨rfl, copyDirectory_transfer_parent cmdRec ["s"] ["t"] ⟨true, 493, 7, 5⟩ fsC9 []
    rfl ⟨5, [], rfl⟩⟩
